import Mathlib

/-!
# Simpson's rule integration (`simpsons.cpp`)

A shallow embedding of `IntegrationConfig`, `SimpsonsRuleIntegration::integrate` and
`IntegrationCalculator::calculate`.

* The constructor of `IntegrationConfig` only compares its two `double` arguments, so it is
  embedded over any carrier with a decidable `≤`, and `lower >= upper` is the comparison of
  that carrier.  For the `double` type itself the carrier is `Double α`: a NaN, or a number
  (finite or infinite) of a linear order `α`, compared as IEEE 754 does, every comparison
  with a NaN being false.
* Where the arithmetic of `integrate` is concerned, `double` values are elements of a linearly
  ordered field `α` (exact arithmetic: no rounding, no NaN, no infinities).  Every definition
  is computable and can be run at `α := ℚ`; the theorems hold for every such field, the reals
  included.
* `int` values are `Int`; `%` on `int` is the truncating remainder `Int.tmod`.  No operation
  of the embedded code can overflow: the loop counter stays below `subIntervals`.
* A `throw std::invalid_argument(msg)` is the `Except.error` of an `InvalidArgument` that
  carries the message.
-/

namespace Simpsons

/-! ## Data model -/

/-- The exception `std::invalid_argument`, identified by the message `what()` returns. -/
structure InvalidArgument where
  what : String
  deriving DecidableEq, Repr

/-- The exception thrown at line 21: the bounds error. -/
def InvalidBounds : InvalidArgument :=
  ⟨"Lower limit must be less than upper limit"⟩

/-- The exception thrown at line 24: the partition-count error. -/
def InvalidPartitionCount : InvalidArgument :=
  ⟨"Number of sub-intervals must be a positive even number"⟩

/-- The private fields of `class IntegrationConfig`. -/
structure IntegrationConfig (α : Type) where
  lowerLimit : α
  upperLimit : α
  subIntervals : Int
  deriving DecidableEq, Repr

namespace IntegrationConfig

variable {α : Type}

/-- The getter `getLowerLimit`. -/
def getLowerLimit (config : IntegrationConfig α) : α := config.lowerLimit

/-- The getter `getUpperLimit`. -/
def getUpperLimit (config : IntegrationConfig α) : α := config.upperLimit

/-- The getter `getSubIntervals`. -/
def getSubIntervals (config : IntegrationConfig α) : Int := config.subIntervals

/-- The validating constructor `IntegrationConfig(lower, upper, intervals)`: either it throws,
or the three fields are assigned.  The test `lower >= upper` is the comparison of the carrier
`α`; nothing is assumed of it, so a carrier with a NaN can pass the test with neither
`lower >= upper` nor `lower < upper`. -/
def create [LE α] [DecidableRel (fun a b : α => a ≤ b)] (lower upper : α) (intervals : Int) :
    Except InvalidArgument (IntegrationConfig α) :=
  if lower ≥ upper then
    Except.error ⟨"Lower limit must be less than upper limit"⟩
  else if intervals ≤ 0 ∨ Int.tmod intervals 2 ≠ 0 then
    Except.error ⟨"Number of sub-intervals must be a positive even number"⟩
  else
    Except.ok { lowerLimit := lower, upperLimit := upper, subIntervals := intervals }

end IntegrationConfig

/-! ## The comparisons of `double` -/

/-- A value of type `double`, as far as comparisons go: a NaN, or a number of the linear order
`α` (the finite values and the two infinities). -/
inductive Double (α : Type) where
  | nan
  | num (x : α)
  deriving DecidableEq, Repr

namespace Double

variable {α : Type}

/-- The comparison `a <= b` of IEEE 754: false as soon as one operand is a NaN. -/
def le [LE α] : Double α → Double α → Prop
  | num x, num y => x ≤ y
  | _, _ => False

/-- The comparison `a < b` of IEEE 754: false as soon as one operand is a NaN. -/
def lt [LT α] : Double α → Double α → Prop
  | num x, num y => x < y
  | _, _ => False

/-- On `double`, `a ≤ b` (and so `b ≥ a`) is the IEEE comparison. -/
instance instLE [LE α] : LE (Double α) := ⟨Double.le⟩

/-- On `double`, `a < b` is the IEEE comparison. -/
instance instLT [LT α] : LT (Double α) := ⟨Double.lt⟩

/-- The IEEE comparison `a <= b` is decidable when the comparison of numbers is. -/
instance decidableLE [LE α] [DecidableRel (fun a b : α => a ≤ b)] :
    DecidableRel (fun a b : Double α => a ≤ b)
  | num x, num y => inferInstanceAs (Decidable (x ≤ y))
  | nan, _ => isFalse (fun h => h)
  | num _, nan => isFalse (fun h => h)

/-- The IEEE comparison `a < b` is decidable when the comparison of numbers is. -/
instance decidableLT [LT α] [DecidableRel (fun a b : α => a < b)] :
    DecidableRel (fun a b : Double α => a < b)
  | num x, num y => inferInstanceAs (Decidable (x < y))
  | nan, _ => isFalse (fun h => h)
  | num _, nan => isFalse (fun h => h)

end Double

/-! ## The quadrature algorithm -/

section Integrate

variable {α : Type} [LinearOrderedField α]

/-- The body of `for (int i = 1; i < subIntervals; i++)` in `integrate`, entered with the
counter at `i` and the accumulator at `area`. -/
def integrateLoop (func : α → α) (lower stepSize : α) (subIntervals : Int) (i : Int)
    (area : α) : α :=
  if i < subIntervals then
    let k := lower + (i : α) * stepSize
    if Int.tmod i 2 = 0 then
      integrateLoop func lower stepSize subIntervals (i + 1) (area + 2 * func k)
    else
      integrateLoop func lower stepSize subIntervals (i + 1) (area + 4 * func k)
  else
    area
termination_by (subIntervals - i).toNat
decreasing_by all_goals omega

/-- The method `SimpsonsRuleIntegration::integrate` for a side-effect free `func`. -/
def integrate (func : α → α) (config : IntegrationConfig α) : α :=
  let lower := config.getLowerLimit
  let upper := config.getUpperLimit
  let subIntervals := config.getSubIntervals
  let stepSize := (upper - lower) / (subIntervals : α)
  let area := func lower + func upper
  integrateLoop func lower stepSize subIntervals 1 area * stepSize / 3

end Integrate

/-! ## Strategy and facade -/

/-- The abstract class `IntegrationStrategy`: one virtual method `integrate`. -/
structure IntegrationStrategy (α : Type) where
  integrate : (α → α) → IntegrationConfig α → α

/-- The class `SimpsonsRuleIntegration`, seen as an `IntegrationStrategy`. -/
def SimpsonsRuleIntegration (α : Type) [LinearOrderedField α] : IntegrationStrategy α :=
  { integrate := Simpsons.integrate }

/-- The class `IntegrationCalculator`: it owns one strategy. -/
structure IntegrationCalculator (α : Type) where
  strategy : IntegrationStrategy α

namespace IntegrationCalculator

variable {α : Type} [LinearOrderedField α]

/-- The method `IntegrationCalculator::calculate`: build the config (which may throw), then
run the held strategy on it. -/
def calculate (calculator : IntegrationCalculator α) (func : α → α)
    (lowerLimit upperLimit : α) (subIntervals : Int) : Except InvalidArgument α :=
  match IntegrationConfig.create lowerLimit upperLimit subIntervals with
  | Except.error e => Except.error e
  | Except.ok config => Except.ok (calculator.strategy.integrate func config)

end IntegrationCalculator

/-! ## Vocabulary of the specification -/

section Vocabulary

variable {α : Type} [LinearOrderedField α]

/-- The step size `h = (upper - lower) / count`. -/
def stepSize (lower upper : α) (count : Int) : α :=
  (upper - lower) / (count : α)

/-- The sample point `x_i = lower + i * h`. -/
def samplePoint (lower upper : α) (count : Int) (i : Int) : α :=
  lower + (i : α) * stepSize lower upper count

/-- The interior weights of the composite Simpson rule: `2` at an even index, `4` at an odd
one. -/
def simpsonWeight (i : Int) : α :=
  if Even i then 2 else 4

/-- The interior weights as section 4.2 of the specification words them: `4` at an even index,
`2` at an odd one. -/
def invertedWeight (i : Int) : α :=
  if Even i then 4 else 2

/-- The formula `S * h / 3` for a given assignment `w` of weights to the interior indices
`1 .. count - 1`, the two endpoints having weight one. -/
def weightedRule (w : Int → α) (func : α → α) (lower upper : α) (count : Int) : α :=
  (func (samplePoint lower upper count 0) + func (samplePoint lower upper count count)
    + ∑ i in Finset.Ico (1 : Int) count, w i * func (samplePoint lower upper count i))
    * stepSize lower upper count / 3

/-- The textbook composite Simpson formula
`(h/3) * (f x_0 + f x_count + 4 * Σ_{odd i in 1..count-1} f x_i + 2 * Σ_{even i in 2..count-2} f x_i)`. -/
def textbookSimpson (func : α → α) (lower upper : α) (count : Int) : α :=
  stepSize lower upper count / 3 *
    (func (samplePoint lower upper count 0) + func (samplePoint lower upper count count)
      + 4 * ∑ i in (Finset.Icc (1 : Int) (count - 1)).filter (fun i => Odd i),
          func (samplePoint lower upper count i)
      + 2 * ∑ i in (Finset.Icc (2 : Int) (count - 2)).filter (fun i => Even i),
          func (samplePoint lower upper count i))

/-- The antiderivative `c0 x + c1 x^2 / 2 + c2 x^3 / 3 + c3 x^4 / 4` of the cubic
`c0 + c1 x + c2 x^2 + c3 x^3`. -/
def cubicPrimitive (c0 c1 c2 c3 : α) (x : α) : α :=
  c0 * x + c1 * x ^ 2 / 2 + c2 * x ^ 3 / 3 + c3 * x ^ 4 / 4

end Vocabulary

/-! ## The same code with an effectful `func`

`func` may throw (it returns an `Except ε α`) and every call of it is recorded: a run returns
the list of the arguments `func` was called with, in call order, next to its outcome.  The
two calls in `func(lower) + func(upper)` are indeterminately sequenced in C++; the flag
`upperFirst` selects the order the compiler chose. -/

namespace Effectful

/-- An exception that escapes `calculate`: the `std::invalid_argument` of the constructor, or
whatever `func` threw. -/
inductive Thrown (ε : Type) where
  | invalidArgument (e : InvalidArgument)
  | byFunc (e : ε)
  deriving DecidableEq, Repr

section

variable {α ε : Type} [LinearOrderedField α]

/-- The loop of `integrate`, entered with the counter at `i`, the accumulator at `area` and the
calls made so far in `trace`.  An exception of `func` leaves the loop at once. -/
def integrateLoop (func : α → Except ε α) (lower stepSize : α) (subIntervals : Int) (i : Int)
    (area : α) (trace : List α) : List α × Except ε α :=
  if i < subIntervals then
    let k := lower + (i : α) * stepSize
    match func k with
    | Except.error e => (trace ++ [k], Except.error e)
    | Except.ok y =>
      if Int.tmod i 2 = 0 then
        integrateLoop func lower stepSize subIntervals (i + 1) (area + 2 * y) (trace ++ [k])
      else
        integrateLoop func lower stepSize subIntervals (i + 1) (area + 4 * y) (trace ++ [k])
  else
    (trace, Except.ok area)
termination_by (subIntervals - i).toNat
decreasing_by all_goals omega

/-- The method `SimpsonsRuleIntegration::integrate` with an effectful `func`. -/
def integrate (upperFirst : Bool) (func : α → Except ε α) (config : IntegrationConfig α) :
    List α × Except ε α :=
  let lower := config.getLowerLimit
  let upper := config.getUpperLimit
  let subIntervals := config.getSubIntervals
  let stepSize := (upper - lower) / (subIntervals : α)
  let first := if upperFirst then upper else lower
  let second := if upperFirst then lower else upper
  match func first with
  | Except.error e => ([first], Except.error e)
  | Except.ok a =>
    match func second with
    | Except.error e => ([first, second], Except.error e)
    | Except.ok b =>
      let area := if upperFirst then b + a else a + b
      match integrateLoop func lower stepSize subIntervals 1 area [first, second] with
      | (trace, Except.error e) => (trace, Except.error e)
      | (trace, Except.ok total) => (trace, Except.ok (total * stepSize / 3))

end

/-- The abstract class `IntegrationStrategy` with an effectful `func`. -/
structure IntegrationStrategy (ε α : Type) where
  integrate : (α → Except ε α) → IntegrationConfig α → List α × Except ε α

/-- The class `SimpsonsRuleIntegration`, seen as an `IntegrationStrategy`. -/
def SimpsonsRuleIntegration (ε α : Type) [LinearOrderedField α] (upperFirst : Bool) :
    IntegrationStrategy ε α :=
  { integrate := Effectful.integrate upperFirst }

/-- The class `IntegrationCalculator`: it owns one strategy. -/
structure IntegrationCalculator (ε α : Type) where
  strategy : IntegrationStrategy ε α

/-- The method `IntegrationCalculator::calculate` with an effectful `func`: the constructor of
the config runs first and calls nothing; only when it returns is the strategy entered. -/
def IntegrationCalculator.calculate {α ε : Type} [LinearOrderedField α]
    (calculator : IntegrationCalculator ε α) (func : α → Except ε α)
    (lowerLimit upperLimit : α) (subIntervals : Int) : List α × Except (Thrown ε) α :=
  match IntegrationConfig.create lowerLimit upperLimit subIntervals with
  | Except.error e => ([], Except.error (Thrown.invalidArgument e))
  | Except.ok config =>
    match calculator.strategy.integrate func config with
    | (trace, Except.error e) => (trace, Except.error (Thrown.byFunc e))
    | (trace, Except.ok value) => (trace, Except.ok value)

/-- The order in which `integrate` calls `func` on a partition: the two limits, in the order
the compiler chose, then the interior sample points `x_1, ..., x_(count-1)`. -/
def evaluationOrder {α : Type} [LinearOrderedField α] (upperFirst : Bool)
    (lower upper : α) (count : Int) : List α :=
  (if upperFirst then [upper, lower] else [lower, upper])
    ++ (List.range (count - 1).toNat).map
        (fun j : Nat => samplePoint lower upper count (1 + (j : Int)))

/-- The sample points `lower + i * stepSize, lower + (i+1) * stepSize, ...`, `k` of them: the
arguments of the `k` iterations of the loop that start at the counter `i`. -/
def loopPoints {α : Type} [LinearOrderedField α] (lower stepSize : α) (i : Int) :
    Nat → List α
  | 0 => []
  | k + 1 => (lower + (i : α) * stepSize) :: loopPoints lower stepSize (i + 1) k

/-- The value an effectful `func` returns at `x`, and `0` where it throws. -/
def valueOf {α ε : Type} [LinearOrderedField α] (func : α → Except ε α) (x : α) : α :=
  match func x with
  | Except.ok v => v
  | Except.error _ => 0

end Effectful

/-! ## The example functions and `main` -/

section Main

variable {α : Type} [LinearOrderedField α]

/-- The function `exampleFunction1`: `pow(x, 3.0) * exp(-x) / (x + 1.0)`.  The library function
`exp` of `<cmath>` is a parameter. -/
def exampleFunction1 (exp : α → α) (x : α) : α :=
  x ^ 3 * exp (-x) / (x + 1)

/-- The function `exampleFunction2`: `1.0 / x`. -/
def exampleFunction2 (x : α) : α :=
  1 / x

/-- One item written with `<<` to a stream: a piece of text, or a `double`. -/
inductive Output (α : Type) where
  | text (s : String)
  | number (x : α)
  deriving DecidableEq, Repr

/-- What a run of `main` leaves behind: what it wrote to `std::cout` and to `std::cerr`, and
the exit status it returned. -/
structure ProcessResult (α : Type) where
  stdout : List (Output α)
  stderr : List (Output α)
  exitStatus : Int
  deriving DecidableEq, Repr

/-- The banner and the prompts `main` writes to `std::cout` while it reads its four inputs. -/
def prompts (α : Type) : List (Output α) :=
  [Output.text "Simpson's Rule Numerical Integration\n",
   Output.text "------------------------------------\n",
   Output.text "Enter lower limit (a): ",
   Output.text "Enter upper limit (b): ",
   Output.text "Enter number of sub-intervals (must be even): ",
   Output.text "Choose function to integrate:\n",
   Output.text "1. f(x) = x³ * e^(-x) / (x+1)\n",
   Output.text "2. f(x) = 1/x\n",
   Output.text "Enter choice (1/2): "]

/-- The `switch (functionChoice)` of `main`: the value assigned to `result`, or the exception
that leaves the `try` block. -/
def mainSwitch (exp : α → α) (lowerLimit upperLimit : α) (subIntervals functionChoice : Int) :
    Except InvalidArgument α :=
  let calculator : IntegrationCalculator α := { strategy := SimpsonsRuleIntegration α }
  if functionChoice = 1 then
    calculator.calculate (exampleFunction1 exp) lowerLimit upperLimit subIntervals
  else if functionChoice = 2 then
    calculator.calculate exampleFunction2 lowerLimit upperLimit subIntervals
  else
    Except.error ⟨"Invalid function choice"⟩

/-- The function `main`, as a function of the four values read from `std::cin` (each read is
taken to have succeeded). -/
def main (exp : α → α) (lowerLimit upperLimit : α) (subIntervals functionChoice : Int) :
    ProcessResult α :=
  match mainSwitch exp lowerLimit upperLimit subIntervals functionChoice with
  | Except.ok result =>
    { stdout := prompts α ++
        [Output.text "Numerical Integration Result: ", Output.number result, Output.text "\n"],
      stderr := [],
      exitStatus := 0 }
  | Except.error e =>
    { stdout := prompts α,
      stderr := [Output.text "Error: ", Output.text e.what, Output.text "\n"],
      exitStatus := 1 }

/-- The antiderivative `x^5 / 5` of `x^4`. -/
def quarticPrimitive (x : α) : α :=
  x ^ 5 / 5

/-- The absolute error of the rule on `f(x) = x^4` over `[lower, upper]` with `count`
sub-intervals, against the exact integral `(upper^5 - lower^5) / 5`. -/
def quarticError (lower upper : α) (count : Int) : α :=
  |integrate (fun x => x ^ 4) ⟨lower, upper, count⟩
    - (quarticPrimitive upper - quarticPrimitive lower)|

end Main

/-! ## Validation -/

section Validation

variable {α : Type} [LinearOrderedField α]

/-- The truncating remainder by two vanishes exactly on the even integers, negative ones
included. -/
theorem tmod_two_eq_zero_iff (n : Int) : Int.tmod n 2 = 0 ↔ Even n := by
  rw [even_iff_two_dvd]
  exact ⟨Int.dvd_of_tmod_eq_zero, Int.tmod_eq_zero_of_dvd⟩

/-- The two exceptions of the constructor are different exceptions. -/
theorem invalidBounds_ne_invalidPartitionCount : InvalidBounds ≠ InvalidPartitionCount := by
  decide

/-- The bounds test comes first: with `lower ≥ upper` the constructor throws the bounds
error, whatever the count. -/
theorem create_of_ge (lower upper : α) (count : Int) (h : lower ≥ upper) :
    IntegrationConfig.create lower upper count = Except.error InvalidBounds := by
  simp [IntegrationConfig.create, h, InvalidBounds]

/-- With `lower < upper`, a count that is non-positive or odd makes the constructor throw the
partition-count error. -/
theorem create_of_lt_of_bad_count (lower upper : α) (count : Int) (h : lower < upper)
    (hc : count ≤ 0 ∨ Odd count) :
    IntegrationConfig.create lower upper count = Except.error InvalidPartitionCount := by
  have hc' : count ≤ 0 ∨ Int.tmod count 2 ≠ 0 := by
    rw [Ne, tmod_two_eq_zero_iff, Int.not_even_iff_odd]; exact hc
  simp only [IntegrationConfig.create, ge_iff_le, not_le.mpr h, if_false, hc', if_true,
    InvalidPartitionCount]

/-- A config that the constructor returns holds the three arguments, and they are valid. -/
theorem create_eq_ok_iff (lower upper : α) (count : Int) (config : IntegrationConfig α) :
    IntegrationConfig.create lower upper count = Except.ok config ↔
      (lower < upper ∧ 0 < count ∧ Even count) ∧ config = ⟨lower, upper, count⟩ := by
  unfold IntegrationConfig.create
  constructor
  · intro h
    split_ifs at h with h1 h2
    rw [not_or, not_not, tmod_two_eq_zero_iff] at h2
    exact ⟨⟨not_le.mp h1, not_le.mp h2.1, h2.2⟩, (Except.ok.inj h).symm⟩
  · rintro ⟨⟨h1, h2, h3⟩, rfl⟩
    have h3' : ¬ (count ≤ 0 ∨ Int.tmod count 2 ≠ 0) := by
      rw [not_or, not_not, tmod_two_eq_zero_iff]; exact ⟨not_le.mpr h2, h3⟩
    simp only [ge_iff_le, not_le.mpr h1, if_false, h3']

end Validation

/-! ## Validation on `double` -/

section ValidationDouble

variable {γ : Type} [LE γ] [DecidableRel (fun a b : γ => a ≤ b)]

end ValidationDouble

section ValidationNaN

variable {β : Type} [LinearOrder β]

end ValidationNaN


/-! ## The loop as a weighted sum -/

section LoopSum

variable {α : Type} [LinearOrderedField α]

/-- One unfolding of the loop when the guard `i < subIntervals` holds. -/
theorem integrateLoop_step (func : α → α) (lower stepSize : α) (n i : Int) (area : α)
    (hi : i < n) :
    integrateLoop func lower stepSize n i area =
      integrateLoop func lower stepSize n (i + 1)
        (area + simpsonWeight i * func (lower + (i : α) * stepSize)) := by
  rw [integrateLoop, if_pos hi]
  by_cases he : Int.tmod i 2 = 0
  · have : Even i := (tmod_two_eq_zero_iff i).mp he
    simp [he, simpsonWeight, this]
  · have : ¬ Even i := fun h => he ((tmod_two_eq_zero_iff i).mpr h)
    simp [he, simpsonWeight, this]

/-- The loop leaves the accumulator alone once the guard fails. -/
theorem integrateLoop_done (func : α → α) (lower stepSize : α) (n i : Int) (area : α)
    (hi : n ≤ i) : integrateLoop func lower stepSize n i area = area := by
  rw [integrateLoop, if_neg (not_lt.mpr hi)]

/-- With `k` iterations left, the loop adds the `k` weighted samples at `i, i+1, ..., i+k-1`. -/
theorem integrateLoop_eq_sum (func : α → α) (lower stepSize : α) (n : Int) (k : Nat) :
    ∀ (i : Int) (area : α), i + k = n →
      integrateLoop func lower stepSize n i area =
        area + ∑ j in Finset.range k,
          simpsonWeight (i + j) * func (lower + ((i + j : Int) : α) * stepSize) := by
  induction k with
  | zero =>
    intro i area h
    rw [integrateLoop_done _ _ _ _ _ _ (by omega)]
    simp
  | succ k ih =>
    intro i area h
    rw [integrateLoop_step _ _ _ _ _ _ (by omega), ih (i + 1) _ (by push_cast at h; omega),
      Finset.sum_range_succ', add_assoc]
    congr 1
    rw [add_comm]
    congr 1
    · apply Finset.sum_congr rfl
      intro j _
      have : i + 1 + (j : Int) = i + ((j + 1 : Nat) : Int) := by push_cast; ring
      rw [this]
    · simp

/-- The loop of `integrate`, started at `1`, as a sum over the interior indices. -/
theorem integrateLoop_eq_sum_Ico (func : α → α) (lower stepSize : α) (n : Int) (area : α) :
    integrateLoop func lower stepSize n 1 area =
      area + ∑ i in Finset.Ico (1 : Int) n,
        simpsonWeight i * func (lower + (i : α) * stepSize) := by
  rcases le_or_lt n 1 with h | h
  · rw [integrateLoop_done _ _ _ _ _ _ h, Finset.Ico_eq_empty (by omega)]
    simp
  · rw [integrateLoop_eq_sum func lower stepSize n (n - 1).toNat 1 area (by omega),
      Int.Ico_eq_finset_map, Finset.sum_map]
    rfl

/-- The value of `integrate` is the weighted rule with the Simpson weights, except that the two
endpoint samples are taken at `lower` and `upper` themselves. -/
theorem integrate_eq_sum (func : α → α) (lower upper : α) (count : Int) :
    integrate func ⟨lower, upper, count⟩ =
      (func lower + func upper
        + ∑ i in Finset.Ico (1 : Int) count,
            simpsonWeight i * func (samplePoint lower upper count i))
        * stepSize lower upper count / 3 := by
  simp only [integrate, IntegrationConfig.getLowerLimit, IntegrationConfig.getUpperLimit,
    IntegrationConfig.getSubIntervals, integrateLoop_eq_sum_Ico]
  rfl

/-- The first sample point is the lower limit. -/
theorem samplePoint_zero (lower upper : α) (count : Int) :
    samplePoint lower upper count 0 = lower := by
  simp [samplePoint]

/-- The last sample point is the upper limit, provided the count is not zero. -/
theorem samplePoint_count (lower upper : α) (count : Int) (hc : count ≠ 0) :
    samplePoint lower upper count count = upper := by
  have : (count : α) ≠ 0 := by exact_mod_cast hc
  simp only [samplePoint, stepSize]
  field_simp

end LoopSum

/-! ## The weights of the rule -/

section Weights

variable {α : Type} [LinearOrderedField α]

/-- Claim C2, as amended: on a valid partition `integrate` returns `S * h / 3`, where `S` adds
the two endpoint samples and, for every interior index `i = 1 .. count - 1`, the sample at
`x_i` with weight `2` when `i` is even and `4` when `i` is odd. -/
theorem integrate_eq_weightedRule (func : α → α) (lower upper : α) (count : Int)
    (_hb : lower < upper) (hpos : 0 < count) (_heven : Even count) :
    integrate func ⟨lower, upper, count⟩ =
      weightedRule simpsonWeight func lower upper count := by
  rw [integrate_eq_sum, weightedRule, samplePoint_zero,
    samplePoint_count lower upper count (ne_of_gt hpos)]

/-- Claim C2, as amended, at `f(x) = x` on `[0, 4]` with four sub-intervals. -/
theorem integrate_eq_weightedRule_witness :
    (0 : ℚ) < 4 ∧ (0 : Int) < 4 ∧ Even (4 : Int) ∧
      integrate (fun x : ℚ => x) ⟨0, 4, 4⟩ = weightedRule simpsonWeight (fun x => x) 0 4 4 :=
  ⟨by norm_num, by decide, by decide,
    integrate_eq_weightedRule (fun x : ℚ => x) 0 4 4 (by norm_num) (by decide) (by decide)⟩

/-- Claim C2, as stated, fails: for the constant function `1` on `[0, 2]` with two
sub-intervals the code returns `(1 + 1 + 4 * 1) * 1 / 3 = 2`, while the formula with weight
`4` at even and `2` at odd interior indices gives `(1 + 1 + 2 * 1) * 1 / 3 = 4 / 3`. -/
theorem integrate_ne_invertedRule :
    (0 : ℚ) < 2 ∧ (0 : Int) < 2 ∧ Even (2 : Int) ∧
      integrate (fun _ : ℚ => 1) ⟨0, 2, 2⟩ = 2 ∧
      weightedRule invertedWeight (fun _ : ℚ => 1) 0 2 2 = 4 / 3 ∧
      integrate (fun _ : ℚ => 1) ⟨0, 2, 2⟩ ≠
        weightedRule invertedWeight (fun _ : ℚ => 1) 0 2 2 := by
  have hI : Finset.Ico (1 : Int) 2 = {1} := by decide
  have h1 : integrate (fun _ : ℚ => 1) ⟨0, 2, 2⟩ = 2 := by
    rw [integrate_eq_sum, hI]
    norm_num [simpsonWeight, stepSize]
  have h2 : weightedRule invertedWeight (fun _ : ℚ => 1) 0 2 2 = 4 / 3 := by
    rw [weightedRule, hI]
    norm_num [invertedWeight, stepSize]
  refine ⟨by norm_num, by decide, by decide, h1, h2, ?_⟩
  rw [h1, h2]
  norm_num

/-- The interior indices, split by parity: the odd ones of `1 .. count - 1` and, when `count`
is even, the even ones of `2 .. count - 2`. -/
theorem sum_simpsonWeight_split (g : Int → α) (count : Int) (heven : Even count) :
    ∑ i in Finset.Ico (1 : Int) count, simpsonWeight i * g i =
      4 * ∑ i in (Finset.Icc (1 : Int) (count - 1)).filter (fun i => Odd i), g i
        + 2 * ∑ i in (Finset.Icc (2 : Int) (count - 2)).filter (fun i => Even i), g i := by
  have hodd : (Finset.Icc (1 : Int) (count - 1)).filter (fun i => Odd i)
      = (Finset.Ico (1 : Int) count).filter (fun i => ¬ Even i) := by
    ext i
    simp only [Finset.mem_filter, Finset.mem_Icc, Finset.mem_Ico, Int.not_even_iff_odd]
    constructor <;> rintro ⟨⟨h1, h2⟩, h3⟩ <;> exact ⟨⟨h1, by omega⟩, h3⟩
  have hev : (Finset.Icc (2 : Int) (count - 2)).filter (fun i => Even i)
      = (Finset.Ico (1 : Int) count).filter (fun i => Even i) := by
    ext i
    simp only [Finset.mem_filter, Finset.mem_Icc, Finset.mem_Ico]
    constructor
    · rintro ⟨⟨h1, h2⟩, h3⟩
      exact ⟨⟨by omega, by omega⟩, h3⟩
    · rintro ⟨⟨h1, h2⟩, h3⟩
      rw [Int.even_iff] at h3 heven
      exact ⟨⟨by omega, by omega⟩, Int.even_iff.mpr h3⟩
  rw [hodd, hev, Finset.mul_sum, Finset.mul_sum,
    ← Finset.sum_filter_add_sum_filter_not (Finset.Ico (1 : Int) count) (fun i => Even i),
    add_comm]
  congr 1
  · apply Finset.sum_congr rfl
    intro i hi
    simp [simpsonWeight, (Finset.mem_filter.mp hi).2]
  · apply Finset.sum_congr rfl
    intro i hi
    simp [simpsonWeight, (Finset.mem_filter.mp hi).2]

/-- Claim C3: on a valid partition `integrate` equals the textbook composite Simpson formula
`(h/3) * (f x_0 + f x_count + 4 * Σ_{odd i} f x_i + 2 * Σ_{even i} f x_i)` with
`h = (upper - lower) / count` and `x_i = lower + i * h`: even interior indices carry weight
`2` and odd interior indices weight `4`, as the comments of the source label them. -/
theorem integrate_eq_textbookSimpson (func : α → α) (lower upper : α) (count : Int)
    (_hb : lower < upper) (hpos : 0 < count) (heven : Even count) :
    integrate func ⟨lower, upper, count⟩ = textbookSimpson func lower upper count := by
  rw [integrate_eq_sum, textbookSimpson, samplePoint_zero,
    samplePoint_count lower upper count (ne_of_gt hpos),
    sum_simpsonWeight_split (fun i => func (samplePoint lower upper count i)) count heven]
  ring

/-- Claim C3 at `f(x) = x * x` on `[0, 3]` with six sub-intervals. -/
theorem integrate_eq_textbookSimpson_witness :
    (0 : ℚ) < 3 ∧ (0 : Int) < 6 ∧ Even (6 : Int) ∧
      integrate (fun x : ℚ => x * x) ⟨0, 3, 6⟩ = textbookSimpson (fun x => x * x) 0 3 6 :=
  ⟨by norm_num, by decide, by decide,
    integrate_eq_textbookSimpson (fun x : ℚ => x * x) 0 3 6 (by norm_num) (by decide)
      (by decide)⟩

end Weights

/-! ## Panels -/

section Panels

variable {α : Type} [LinearOrderedField α]

/-- Grouping the weighted samples of `2 * (m + 1)` sub-intervals into `m + 1` panels of two
sub-intervals each, every panel with the weights `1, 4, 1`. -/
theorem sum_simpsonWeight_panels (g : Int → α) (m : Nat) :
    g 0 + g ((2 * (m + 1) : Nat) : Int)
        + ∑ i in Finset.Ico (1 : Int) ((2 * (m + 1) : Nat) : Int), simpsonWeight i * g i =
      ∑ p in Finset.range (m + 1),
        (g ((2 * p : Nat) : Int) + 4 * g ((2 * p + 1 : Nat) : Int)
          + g ((2 * p + 2 : Nat) : Int)) := by
  have key : ∀ m : Nat,
      g 0 + g ((2 * (m + 1) : Nat) : Int)
        + ∑ j in Finset.range (2 * m + 1),
            simpsonWeight ((1 : Int) + j) * g ((1 : Int) + j) =
      ∑ p in Finset.range (m + 1),
        (g ((2 * p : Nat) : Int) + 4 * g ((2 * p + 1 : Nat) : Int)
          + g ((2 * p + 2 : Nat) : Int)) := by
    intro m
    induction m with
    | zero =>
      have h1 : ¬ Even (1 : Int) := by decide
      simp [simpsonWeight, h1]
      ring
    | succ m ih =>
      rw [Finset.sum_range_succ _ (m + 1), ← ih,
        show 2 * (m + 1) + 1 = (2 * m + 1) + 1 + 1 from by ring,
        Finset.sum_range_succ, Finset.sum_range_succ]
      have e1 : (1 : Int) + ((2 * m + 1 : Nat) : Int) = ((2 * (m + 1) : Nat) : Int) := by
        push_cast; ring
      have e2 : (1 : Int) + ((2 * m + 1 + 1 : Nat) : Int) = ((2 * (m + 1) + 1 : Nat) : Int) := by
        push_cast; ring
      have e3 : 2 * m + 1 + 1 + 1 = 2 * (m + 1) + 1 := by omega
      have p1 : Even (((2 * (m + 1) : Nat) : Int)) := ⟨((m + 1 : Nat) : Int), by push_cast; ring⟩
      have p2 : ¬ Even (((2 * (m + 1) + 1 : Nat) : Int)) := by
        rw [Int.not_even_iff_odd]
        exact ⟨((m + 1 : Nat) : Int), by push_cast; ring⟩
      rw [e1, e2]
      simp only [simpsonWeight, p1, p2, if_true, if_false]
      have e4 : ((2 * (m + 1 + 1) : Nat) : Int) = ((2 * (m + 1) + 2 : Nat) : Int) := by
        push_cast; ring
      rw [e4, e3]
      ring
  rw [← key m, Int.Ico_eq_finset_map, Finset.sum_map]
  have hk : (((2 * (m + 1) : Nat) : Int) - 1).toNat = 2 * m + 1 := by omega
  rw [hk]
  rfl

/-- A positive even count is `2 * (m + 1)` for some natural number `m`. -/
theorem exists_panels (count : Int) (hpos : 0 < count) (heven : Even count) :
    ∃ m : Nat, count = ((2 * (m + 1) : Nat) : Int) := by
  rw [Int.even_iff] at heven
  exact ⟨(count / 2 - 1).toNat, by omega⟩

/-- The value of `integrate` on `2 * (m + 1)` sub-intervals, panel by panel. -/
theorem integrate_eq_panels (func : α → α) (lower upper : α) (m : Nat) :
    integrate func ⟨lower, upper, ((2 * (m + 1) : Nat) : Int)⟩ =
      ∑ p in Finset.range (m + 1),
        stepSize lower upper ((2 * (m + 1) : Nat) : Int) / 3 *
          (func (samplePoint lower upper ((2 * (m + 1) : Nat) : Int) ((2 * p : Nat) : Int))
            + 4 * func
                (samplePoint lower upper ((2 * (m + 1) : Nat) : Int) ((2 * p + 1 : Nat) : Int))
            + func
                (samplePoint lower upper ((2 * (m + 1) : Nat) : Int)
                  ((2 * p + 2 : Nat) : Int))) := by
  have hc : ((2 * (m + 1) : Nat) : Int) ≠ 0 := by omega
  have h := sum_simpsonWeight_panels
    (fun i => func (samplePoint lower upper ((2 * (m + 1) : Nat) : Int) i)) m
  simp only [samplePoint_zero, samplePoint_count lower upper _ hc] at h
  rw [integrate_eq_sum, ← Finset.mul_sum, ← h]
  ring

end Panels

/-! ## Exactness -/

section Exactness

variable {α : Type} [LinearOrderedField α]

/-- On a valid partition the rule applied to a cubic is the difference of its antiderivative
at the two limits. -/
theorem integrate_cubic_eq_primitive (c0 c1 c2 c3 lower upper : α) (count : Int)
    (hpos : 0 < count) (heven : Even count) :
    integrate (fun x => c0 + c1 * x + c2 * x ^ 2 + c3 * x ^ 3) ⟨lower, upper, count⟩ =
      cubicPrimitive c0 c1 c2 c3 upper - cubicPrimitive c0 c1 c2 c3 lower := by
  obtain ⟨m, rfl⟩ := exists_panels count hpos heven
  have hc : ((2 * (m + 1) : Nat) : Int) ≠ 0 := by omega
  rw [integrate_eq_panels]
  have hpanel : ∀ p ∈ Finset.range (m + 1),
      stepSize lower upper ((2 * (m + 1) : Nat) : Int) / 3 *
        ((fun x => c0 + c1 * x + c2 * x ^ 2 + c3 * x ^ 3)
            (samplePoint lower upper ((2 * (m + 1) : Nat) : Int) ((2 * p : Nat) : Int))
          + 4 * (fun x => c0 + c1 * x + c2 * x ^ 2 + c3 * x ^ 3)
            (samplePoint lower upper ((2 * (m + 1) : Nat) : Int) ((2 * p + 1 : Nat) : Int))
          + (fun x => c0 + c1 * x + c2 * x ^ 2 + c3 * x ^ 3)
            (samplePoint lower upper ((2 * (m + 1) : Nat) : Int) ((2 * p + 2 : Nat) : Int)))
        = cubicPrimitive c0 c1 c2 c3
            (samplePoint lower upper ((2 * (m + 1) : Nat) : Int) ((2 * (p + 1) : Nat) : Int))
          - cubicPrimitive c0 c1 c2 c3
            (samplePoint lower upper ((2 * (m + 1) : Nat) : Int) ((2 * p : Nat) : Int)) := by
    intro p _
    simp only [samplePoint, cubicPrimitive]
    push_cast
    ring
  rw [Finset.sum_congr rfl hpanel,
    Finset.sum_range_sub (fun p => cubicPrimitive c0 c1 c2 c3
      (samplePoint lower upper ((2 * (m + 1) : Nat) : Int) ((2 * p : Nat) : Int)))]
  rw [samplePoint_count lower upper _ hc]
  simp [samplePoint]

/-- Claim C5: for a constant function `c` on a valid partition `integrate` returns
`c * (upper - lower)`; equivalently the weights of the two endpoints and of the interior
indices add up to `3 * count`. -/
theorem integrate_const (c lower upper : α) (count : Int)
    (_hb : lower < upper) (hpos : 0 < count) (heven : Even count) :
    integrate (fun _ => c) ⟨lower, upper, count⟩ = c * (upper - lower) ∧
      (1 + 1 + ∑ i in Finset.Ico (1 : Int) count, simpsonWeight i : α) = 3 * (count : α) := by
  constructor
  · have h := integrate_cubic_eq_primitive c 0 0 0 lower upper count hpos heven
    simp only [zero_mul, add_zero] at h
    rw [h, cubicPrimitive, cubicPrimitive]
    ring
  · obtain ⟨m, rfl⟩ := exists_panels count hpos heven
    have h := sum_simpsonWeight_panels (fun _ => (1 : α)) m
    simp only [mul_one, Finset.sum_const, Finset.card_range, nsmul_eq_mul] at h
    rw [h]
    push_cast
    ring

/-- Claim C5 at the constant `5` on `[1, 4]` with eight sub-intervals. -/
theorem integrate_const_witness :
    (1 : ℚ) < 4 ∧ (0 : Int) < 8 ∧ Even (8 : Int) ∧
      (integrate (fun _ : ℚ => 5) ⟨1, 4, 8⟩ = 5 * (4 - 1) ∧
        (1 + 1 + ∑ i in Finset.Ico (1 : Int) 8, simpsonWeight i : ℚ) = 3 * ((8 : Int) : ℚ)) :=
  ⟨by norm_num, by decide, by decide,
    integrate_const (5 : ℚ) 1 4 8 (by norm_num) (by decide) (by decide)⟩

/-- Claim C4: for a polynomial `p` of degree at most three and a valid partition of
`[lower, upper]`, `integrate` in exact real arithmetic is the definite integral of `p` over
`[lower, upper]`; and `integrate` of `x^3` from `0` to `1` on two sub-intervals is `1/4`. -/
theorem integrate_cubic_exact (c0 c1 c2 c3 lower upper : ℝ) (count : Int)
    (_hb : lower < upper) (hpos : 0 < count) (heven : Even count) :
    integrate (fun x => c0 + c1 * x + c2 * x ^ 2 + c3 * x ^ 3) ⟨lower, upper, count⟩ =
        ∫ x in lower..upper, c0 + c1 * x + c2 * x ^ 2 + c3 * x ^ 3 ∧
      integrate (fun x : ℝ => x ^ 3) ⟨0, 1, 2⟩ = 1 / 4 := by
  constructor
  · rw [integrate_cubic_eq_primitive c0 c1 c2 c3 lower upper count hpos heven]
    have hint : ∀ (c : ℝ) (n : Nat),
        IntervalIntegrable (fun x : ℝ => c * x ^ n) MeasureTheory.volume lower upper :=
      fun c n => (continuous_const.mul (continuous_pow n)).intervalIntegrable _ _
    have e : (fun x : ℝ => c0 + c1 * x + c2 * x ^ 2 + c3 * x ^ 3)
        = fun x => c0 * x ^ 0 + c1 * x ^ 1 + c2 * x ^ 2 + c3 * x ^ 3 := by
      funext x; ring
    rw [e, intervalIntegral.integral_add (((hint c0 0).add (hint c1 1)).add (hint c2 2))
        (hint c3 3),
      intervalIntegral.integral_add ((hint c0 0).add (hint c1 1)) (hint c2 2),
      intervalIntegral.integral_add (hint c0 0) (hint c1 1)]
    simp only [intervalIntegral.integral_const_mul, integral_pow, cubicPrimitive]
    push_cast
    ring
  · have h := integrate_cubic_eq_primitive (0 : ℝ) 0 0 1 0 1 2 (by decide) (by decide)
    simp only [zero_mul, add_zero, zero_add, one_mul] at h
    rw [h, cubicPrimitive, cubicPrimitive]
    norm_num

/-- Claim C4 at the cubic `1 + 2 x + 3 x^2 + 4 x^3` on `[0, 2]` with four sub-intervals. -/
theorem integrate_cubic_exact_witness :
    (0 : ℝ) < 2 ∧ (0 : Int) < 4 ∧ Even (4 : Int) ∧
      (integrate (fun x : ℝ => 1 + 2 * x + 3 * x ^ 2 + 4 * x ^ 3) ⟨0, 2, 4⟩ =
          ∫ x in (0 : ℝ)..2, 1 + 2 * x + 3 * x ^ 2 + 4 * x ^ 3 ∧
        integrate (fun x : ℝ => x ^ 3) ⟨0, 1, 2⟩ = 1 / 4) :=
  ⟨by norm_num, by decide, by decide,
    integrate_cubic_exact 1 2 3 4 0 2 4 (by norm_num) (by decide) (by decide)⟩

end Exactness

/-! ## The constructor and the facade -/

section Facade

variable {α : Type} [LinearOrderedField α]

/-- Claim C6: `calculate` returns, unchanged, the error of the `IntegrationConfig`
constructor when construction fails, and otherwise the value of the held strategy's
`integrate` on the config built from the same three values; with the Simpson strategy that
value is `SimpsonsRuleIntegration::integrate` on `(lower, upper, count)`. -/
theorem calculate_delegates (calculator : IntegrationCalculator α) (func : α → α)
    (lower upper : α) (count : Int) :
    (∀ e, IntegrationConfig.create lower upper count = Except.error e →
      calculator.calculate func lower upper count = Except.error e) ∧
    (∀ config, IntegrationConfig.create lower upper count = Except.ok config →
      config = ⟨lower, upper, count⟩ ∧
      calculator.calculate func lower upper count =
        Except.ok (calculator.strategy.integrate func config)) ∧
    (∀ config, IntegrationConfig.create lower upper count = Except.ok config →
      (IntegrationCalculator.mk (SimpsonsRuleIntegration α)).calculate func lower upper count =
        Except.ok (integrate func ⟨lower, upper, count⟩)) := by
  refine ⟨?_, ?_, ?_⟩
  · intro e h
    simp only [IntegrationCalculator.calculate, h]
  · intro config h
    refine ⟨((create_eq_ok_iff lower upper count config).mp h).2, ?_⟩
    simp only [IntegrationCalculator.calculate, h]
  · intro config h
    have hc := ((create_eq_ok_iff lower upper count config).mp h).2
    simp only [IntegrationCalculator.calculate, h, SimpsonsRuleIntegration, hc]

/-- Claim C7: the bounds check precedes the partition-count check: when `lower ≥ upper` and
the count is non-positive or odd, the constructor reports the bounds error and not the
partition-count error. -/
theorem create_bounds_first (lower upper : α) (count : Int)
    (hb : lower ≥ upper) (_hc : count ≤ 0 ∨ Odd count) :
    IntegrationConfig.create lower upper count = Except.error InvalidBounds ∧
      IntegrationConfig.create lower upper count ≠ Except.error InvalidPartitionCount := by
  have h := create_of_ge lower upper count hb
  refine ⟨h, ?_⟩
  rw [h]
  intro hne
  exact invalidBounds_ne_invalidPartitionCount (Except.error.inj hne)

/-- Claim C7 at `lower = 3`, `upper = 1` and the negative odd count `-5`. -/
theorem create_bounds_first_witness :
    (3 : ℚ) ≥ 1 ∧ ((-5 : Int) ≤ 0 ∨ Odd (-5 : Int)) ∧
      (IntegrationConfig.create (3 : ℚ) 1 (-5) = Except.error InvalidBounds ∧
        IntegrationConfig.create (3 : ℚ) 1 (-5) ≠ Except.error InvalidPartitionCount) :=
  ⟨by norm_num, Or.inl (by decide),
    create_bounds_first (3 : ℚ) 1 (-5) (by norm_num) (Or.inl (by decide))⟩

end Facade

/-! ## Exceptions of `func` and the order of its calls -/

namespace Effectful

section Propagation

variable {α ε : Type} [LinearOrderedField α]

/-- A `func` that returns at `x` returns `valueOf func x`. -/
theorem eq_ok_valueOf (func : α → Except ε α) (x : α) (h : ∃ v, func x = Except.ok v) :
    func x = Except.ok (valueOf func x) := by
  obtain ⟨v, hv⟩ := h
  simp [valueOf, hv]

/-- The loop when `func` returns at every remaining point: all of them are called, in order,
and the accumulator is the one of the pure loop. -/
theorem integrateLoop_ok (func : α → Except ε α) (g : α → α) (lower stepSize : α) (n : Int)
    (k : Nat) :
    ∀ (i : Int) (area : α) (trace : List α), i + k = n →
      (∀ q ∈ loopPoints lower stepSize i k, func q = Except.ok (g q)) →
      integrateLoop func lower stepSize n i area trace =
        (trace ++ loopPoints lower stepSize i k,
          Except.ok (Simpsons.integrateLoop g lower stepSize n i area)) := by
  induction k with
  | zero =>
    intro i area trace h _
    rw [integrateLoop, if_neg (by omega), Simpsons.integrateLoop_done _ _ _ _ _ _ (by omega)]
    simp [loopPoints]
  | succ k ih =>
    intro i area trace h hok
    have hi : i < n := by omega
    have h0 := hok (lower + (i : α) * stepSize) (by simp [loopPoints])
    have hrest : ∀ q ∈ loopPoints lower stepSize (i + 1) k, func q = Except.ok (g q) :=
      fun q hq => hok q (by simp [loopPoints, hq])
    rw [integrateLoop, if_pos hi, Simpsons.integrateLoop, if_pos hi]
    simp only [h0]
    by_cases he : Int.tmod i 2 = 0
    · simp only [he, if_true]
      rw [ih (i + 1) _ _ (by push_cast at h; omega) hrest]
      simp [loopPoints]
    · simp only [he, if_false]
      rw [ih (i + 1) _ _ (by push_cast at h; omega) hrest]
      simp [loopPoints]

/-- The loop when `func` throws: the calls stop at the first point where it throws, and that
exception leaves the loop. -/
theorem integrateLoop_error (func : α → Except ε α) (lower stepSize : α) (n : Int)
    (k : Nat) :
    ∀ (i : Int) (area : α) (trace pre : List α) (p : α) (post : List α) (e : ε),
      i + k = n → loopPoints lower stepSize i k = pre ++ p :: post →
      (∀ q ∈ pre, ∃ v, func q = Except.ok v) → func p = Except.error e →
      integrateLoop func lower stepSize n i area trace =
        (trace ++ (pre ++ [p]), Except.error e) := by
  induction k with
  | zero =>
    intro i area trace pre p post e _ hpts
    simp [loopPoints] at hpts
  | succ k ih =>
    intro i area trace pre p post e h hpts hpre hp
    have hi : i < n := by omega
    rw [integrateLoop, if_pos hi]
    cases pre with
    | nil =>
      simp only [loopPoints, List.nil_append, List.cons.injEq] at hpts
      simp only [hpts.1, hp, List.nil_append]
    | cons q pre =>
      simp only [loopPoints, List.cons_append, List.cons.injEq] at hpts
      obtain ⟨v, hv⟩ := hpre q (by simp)
      have hrest : ∀ r ∈ pre, ∃ v, func r = Except.ok v :=
        fun r hr => hpre r (by simp [hr])
      simp only [hpts.1, hv]
      by_cases he : Int.tmod i 2 = 0
      · simp only [he, if_true]
        rw [ih (i + 1) _ _ pre p post e (by push_cast at h; omega) hpts.2 hrest hp]
        simp
      · simp only [he, if_false]
        rw [ih (i + 1) _ _ pre p post e (by push_cast at h; omega) hpts.2 hrest hp]
        simp

/-- The points of the loop, by index. -/
theorem loopPoints_eq_map (lower stepSize : α) (k : Nat) :
    ∀ i : Int, loopPoints lower stepSize i k =
      (List.range k).map (fun j : Nat => lower + ((i + (j : Int) : Int) : α) * stepSize) := by
  induction k with
  | zero => intro i; rfl
  | succ k ih =>
    intro i
    rw [loopPoints, ih (i + 1), List.range_succ_eq_map, List.map_cons, List.map_map]
    simp only [Nat.cast_zero, add_zero, List.cons.injEq, true_and]
    apply List.map_congr_left
    intro j _
    simp only [Function.comp, Nat.succ_eq_add_one]
    push_cast
    ring

/-- The order of the calls: the two limits, then the points of the loop. -/
theorem evaluationOrder_eq (upperFirst : Bool) (lower upper : α) (count : Int) :
    evaluationOrder upperFirst lower upper count =
      (if upperFirst then upper else lower) :: (if upperFirst then lower else upper) ::
        loopPoints lower (stepSize lower upper count) 1 (count - 1).toNat := by
  rw [loopPoints_eq_map, evaluationOrder]
  cases upperFirst <;> simp [samplePoint]

/-- When `func` returns at every point of the evaluation order, `integrate` calls it at all of
them, in that order, and returns the value of the pure `integrate`. -/
theorem integrate_ok (upperFirst : Bool) (func : α → Except ε α) (g : α → α)
    (lower upper : α) (count : Int)
    (hok : ∀ q ∈ evaluationOrder upperFirst lower upper count, func q = Except.ok (g q)) :
    integrate upperFirst func ⟨lower, upper, count⟩ =
      (evaluationOrder upperFirst lower upper count,
        Except.ok (Simpsons.integrate g ⟨lower, upper, count⟩)) := by
  rw [evaluationOrder_eq] at hok ⊢
  have h1 := hok (if upperFirst then upper else lower) (by simp)
  have h2 := hok (if upperFirst then lower else upper) (by simp)
  have h3 : ∀ q ∈ loopPoints lower (stepSize lower upper count) 1 (count - 1).toNat,
      func q = Except.ok (g q) :=
    fun q hq => hok q (List.mem_cons_of_mem _ (List.mem_cons_of_mem _ hq))
  rcases le_or_lt count 1 with hc | hc
  · have hk : (count - 1).toNat = 0 := by omega
    simp only [integrate, Simpsons.integrate, IntegrationConfig.getLowerLimit,
      IntegrationConfig.getUpperLimit, IntegrationConfig.getSubIntervals, h1, h2]
    rw [integrateLoop, if_neg (by omega), Simpsons.integrateLoop_done _ _ _ _ _ _ hc, hk]
    cases upperFirst <;> simp [loopPoints, add_comm]
  · simp only [integrate, Simpsons.integrate, IntegrationConfig.getLowerLimit,
      IntegrationConfig.getUpperLimit, IntegrationConfig.getSubIntervals, h1, h2]
    have h3' := h3
    rw [stepSize] at h3'
    rw [integrateLoop_ok func g lower _ count (count - 1).toNat 1 _ _ (by omega) h3']
    cases upperFirst <;> simp [stepSize, add_comm]

/-- When `func` throws somewhere in the evaluation order, `integrate` stops at the first
such point and that exception leaves it. -/
theorem integrate_error (upperFirst : Bool) (func : α → Except ε α)
    (lower upper : α) (count : Int) (pre : List α) (p : α) (post : List α) (e : ε)
    (hpts : evaluationOrder upperFirst lower upper count = pre ++ p :: post)
    (hpre : ∀ q ∈ pre, ∃ v, func q = Except.ok v) (hp : func p = Except.error e) :
    integrate upperFirst func ⟨lower, upper, count⟩ = (pre ++ [p], Except.error e) := by
  rw [evaluationOrder_eq] at hpts
  simp only [integrate, IntegrationConfig.getLowerLimit, IntegrationConfig.getUpperLimit,
    IntegrationConfig.getSubIntervals]
  cases pre with
  | nil =>
    simp only [List.nil_append, List.cons.injEq] at hpts
    simp only [hpts.1, hp, List.nil_append]
  | cons q1 pre =>
    simp only [List.cons_append, List.cons.injEq] at hpts
    obtain ⟨v1, hv1⟩ := hpre q1 (by simp)
    simp only [hpts.1, hv1]
    cases pre with
    | nil =>
      simp only [List.nil_append, List.cons.injEq] at hpts
      simp only [hpts.2.1, hp, List.cons_append, List.nil_append]
    | cons q2 pre =>
      simp only [List.cons_append, List.cons.injEq] at hpts
      obtain ⟨v2, hv2⟩ := hpre q2 (by simp)
      have hrest : ∀ r ∈ pre, ∃ v, func r = Except.ok v :=
        fun r hr => hpre r (by simp [hr])
      have hc : (1 : Int) + ((count - 1).toNat : Int) = count := by
        rcases le_or_lt count 1 with h | h
        · have hk : (count - 1).toNat = 0 := by omega
          rw [hk] at hpts
          simp [loopPoints] at hpts
        · omega
      simp only [hpts.2.1, hv2]
      have hl := hpts.2.2
      rw [stepSize] at hl
      rw [integrateLoop_error func lower _ count (count - 1).toNat 1 _ _ pre p post e hc hl
        hrest hp]
      simp

/-- In a list with an element where `func` throws there is a first such element. -/
theorem exists_first_error (func : α → Except ε α) (pts : List α)
    (h : ∃ q ∈ pts, ∃ e, func q = Except.error e) :
    ∃ pre p post e, pts = pre ++ p :: post ∧ (∀ q ∈ pre, ∃ v, func q = Except.ok v) ∧
      func p = Except.error e := by
  induction pts with
  | nil => simp at h
  | cons a pts ih =>
    cases ha : func a with
    | error e => exact ⟨[], a, pts, e, rfl, by simp, ha⟩
    | ok v =>
      obtain ⟨q, hq, e, he⟩ := h
      rcases List.mem_cons.mp hq with rfl | hq
      · rw [ha] at he; cases he
      · obtain ⟨pre, p, post, e, hpts, hpre, hp⟩ := ih ⟨q, hq, e, he⟩
        refine ⟨a :: pre, p, post, e, by simp [hpts], ?_, hp⟩
        intro r hr
        rcases List.mem_cons.mp hr with rfl | hr
        · exact ⟨v, ha⟩
        · exact hpre r hr

/-- On a partition with a positive count the evaluation order visits exactly the sample points
`x_0, ..., x_count`. -/
theorem mem_evaluationOrder_iff (upperFirst : Bool) (lower upper : α) (count : Int)
    (hpos : 0 < count) (q : α) :
    q ∈ evaluationOrder upperFirst lower upper count ↔
      ∃ i : Int, 0 ≤ i ∧ i ≤ count ∧ q = samplePoint lower upper count i := by
  have h0 := samplePoint_zero lower upper count
  have hn := samplePoint_count lower upper count (ne_of_gt hpos)
  simp only [evaluationOrder, List.mem_append, List.mem_map, List.mem_range]
  constructor
  · rintro (h | ⟨j, hj, rfl⟩)
    · have hq : q = lower ∨ q = upper := by
        cases upperFirst <;> simp at h <;> tauto
      rcases hq with rfl | rfl
      · exact ⟨0, le_refl 0, le_of_lt hpos, h0.symm⟩
      · exact ⟨count, le_of_lt hpos, le_refl count, hn.symm⟩
    · exact ⟨1 + (j : Int), by omega, by omega, rfl⟩
  · rintro ⟨i, hi0, hin, rfl⟩
    rcases eq_or_lt_of_le hi0 with rfl | hi0
    · left; rw [h0]; cases upperFirst <;> simp
    · rcases eq_or_lt_of_le hin with rfl | hin
      · left; rw [hn]; cases upperFirst <;> simp
      · right
        exact ⟨(i - 1).toNat, by omega, by congr 1; omega⟩

/-- Claim C9: with a `func` that may fail, on every valid partition: if `func` fails at one of
the `count + 1` sample points, `integrate` fails with the failure `func` raised at the first
failing point of its evaluation order, having called `func` up to that point only, and
returns no value; if `func` succeeds at every sample point, `integrate` succeeds (and the
value is that of the pure `integrate` on the values of `func`). -/
theorem integrate_propagates (upperFirst : Bool) (func : α → Except ε α)
    (lower upper : α) (count : Int)
    (_hb : lower < upper) (hpos : 0 < count) (_heven : Even count) :
    ((∃ i : Int, 0 ≤ i ∧ i ≤ count ∧
        ∃ e, func (samplePoint lower upper count i) = Except.error e) →
      ∃ pre p post e,
        evaluationOrder upperFirst lower upper count = pre ++ p :: post ∧
        (∀ q ∈ pre, ∃ v, func q = Except.ok v) ∧ func p = Except.error e ∧
        integrate upperFirst func ⟨lower, upper, count⟩ = (pre ++ [p], Except.error e)) ∧
    ((∀ i : Int, 0 ≤ i → i ≤ count →
        ∃ v, func (samplePoint lower upper count i) = Except.ok v) →
      integrate upperFirst func ⟨lower, upper, count⟩ =
        (evaluationOrder upperFirst lower upper count,
          Except.ok (Simpsons.integrate (valueOf func) ⟨lower, upper, count⟩))) := by
  constructor
  · rintro ⟨i, hi0, hin, e, he⟩
    have hmem : samplePoint lower upper count i ∈ evaluationOrder upperFirst lower upper count :=
      (mem_evaluationOrder_iff upperFirst lower upper count hpos _).mpr ⟨i, hi0, hin, rfl⟩
    obtain ⟨pre, p, post, e', hpts, hpre, hp⟩ :=
      exists_first_error func _ ⟨_, hmem, e, he⟩
    exact ⟨pre, p, post, e', hpts, hpre, hp,
      integrate_error upperFirst func lower upper count pre p post e' hpts hpre hp⟩
  · intro hall
    apply integrate_ok
    intro q hq
    obtain ⟨i, hi0, hin, rfl⟩ := (mem_evaluationOrder_iff upperFirst lower upper count hpos q).mp hq
    exact eq_ok_valueOf func _ (hall i hi0 hin)

/-- Claim C9 at a `func` that fails exactly at `1`, on `[0, 2]` with two sub-intervals. -/
theorem integrate_propagates_witness :
    (0 : ℚ) < 2 ∧ (0 : Int) < 2 ∧ Even (2 : Int) ∧
    (((∃ i : Int, 0 ≤ i ∧ i ≤ 2 ∧
        ∃ e, (fun x : ℚ => if x = 1 then Except.error "pole" else Except.ok x)
          (samplePoint 0 2 2 i) = Except.error e) →
      ∃ pre p post e,
        evaluationOrder false (0 : ℚ) 2 2 = pre ++ p :: post ∧
        (∀ q ∈ pre, ∃ v,
          (fun x : ℚ => if x = 1 then Except.error "pole" else Except.ok x) q = Except.ok v) ∧
        (fun x : ℚ => if x = 1 then Except.error "pole" else Except.ok x) p = Except.error e ∧
        integrate false (fun x : ℚ => if x = 1 then Except.error "pole" else Except.ok x)
          ⟨0, 2, 2⟩ = (pre ++ [p], Except.error e)) ∧
    ((∀ i : Int, 0 ≤ i → i ≤ 2 →
        ∃ v, (fun x : ℚ => if x = 1 then Except.error "pole" else Except.ok x)
          (samplePoint 0 2 2 i) = Except.ok v) →
      integrate false (fun x : ℚ => if x = 1 then Except.error "pole" else Except.ok x)
          ⟨0, 2, 2⟩ =
        (evaluationOrder false (0 : ℚ) 2 2,
          Except.ok (Simpsons.integrate
            (valueOf (fun x : ℚ => if x = 1 then Except.error "pole" else Except.ok x))
            ⟨0, 2, 2⟩)))) :=
  ⟨by norm_num, by decide, by decide,
    integrate_propagates false
      (fun x : ℚ => if x = 1 then Except.error "pole" else Except.ok x) 0 2 2
      (by norm_num) (by decide) (by decide)⟩

/-- Claim C10: validation is eager: on an invalid triple (`lower ≥ upper`, or `count ≤ 0`, or
`count` odd) `calculate` fails with the error of the constructor and the trace of calls to
`func` is empty, whatever the strategy and whatever `func` would do. -/
theorem calculate_validates_first (calculator : IntegrationCalculator ε α)
    (func : α → Except ε α) (lower upper : α) (count : Int)
    (hinv : lower ≥ upper ∨ count ≤ 0 ∨ Odd count) :
    calculator.calculate func lower upper count =
      ([], Except.error (Thrown.invalidArgument
        (if lower ≥ upper then InvalidBounds else InvalidPartitionCount))) := by
  by_cases hb : lower ≥ upper
  · have h := create_of_ge lower upper count hb
    simp only [IntegrationCalculator.calculate, h, hb, if_true]
  · have h := create_of_lt_of_bad_count lower upper count (not_le.mp hb)
      (hinv.resolve_left hb)
    simp only [IntegrationCalculator.calculate, h, hb, if_false]

/-- Claim C10 at a `func` that always fails, on `[0, 1]` with three sub-intervals. -/
theorem calculate_validates_first_witness :
    ((0 : ℚ) ≥ 1 ∨ (3 : Int) ≤ 0 ∨ Odd (3 : Int)) ∧
      (IntegrationCalculator.mk (SimpsonsRuleIntegration String ℚ false)).calculate
          (fun _ => Except.error "never called") 0 1 3 =
        ([], Except.error (Thrown.invalidArgument
          (if (0 : ℚ) ≥ 1 then InvalidBounds else InvalidPartitionCount))) :=
  ⟨Or.inr (Or.inr (by decide)),
    calculate_validates_first (IntegrationCalculator.mk (SimpsonsRuleIntegration String ℚ false))
      (fun _ => Except.error "never called") 0 1 3 (Or.inr (Or.inr (by decide)))⟩

/-- The evaluation order in terms of the sample points: the two end points first, then the
interior points by increasing index. -/
theorem evaluationOrder_eq_samplePoints (upperFirst : Bool) (lower upper : α) (count : Int)
    (hpos : 0 < count) :
    evaluationOrder upperFirst lower upper count =
      (if upperFirst then
          [samplePoint lower upper count count, samplePoint lower upper count 0]
        else [samplePoint lower upper count 0, samplePoint lower upper count count])
        ++ (List.range (count - 1).toNat).map
            (fun j : Nat => samplePoint lower upper count (1 + (j : Int))) := by
  rw [samplePoint_zero, samplePoint_count lower upper count (ne_of_gt hpos), evaluationOrder]

/-- The evaluation order has `count + 1` entries when the count is positive. -/
theorem length_evaluationOrder (upperFirst : Bool) (lower upper : α) (count : Int)
    (hpos : 0 < count) :
    ((evaluationOrder upperFirst lower upper count).length : Int) = count + 1 := by
  cases upperFirst <;> simp [evaluationOrder] <;> omega

/-- The evaluation order is a rearrangement of `x_0, x_1, ..., x_count`. -/
theorem evaluationOrder_perm (upperFirst : Bool) (lower upper : α) (count : Int)
    (hpos : 0 < count) :
    List.Perm (evaluationOrder upperFirst lower upper count)
      ((List.range (count.toNat + 1)).map
        (fun i : Nat => samplePoint lower upper count (i : Int))) := by
  rw [evaluationOrder_eq_samplePoints upperFirst lower upper count hpos]
  obtain ⟨k, hk⟩ : ∃ k : Nat, count = (k : Int) + 1 := ⟨(count - 1).toNat, by omega⟩
  have h1 : (count - 1).toNat = k := by omega
  have h2 : count.toNat + 1 = (k + 1) + 1 := by omega
  rw [h1, h2, List.range_succ_eq_map, List.range_succ, List.map_cons, List.map_map,
    List.map_append, List.map_singleton]
  have hf : (fun i : Nat => samplePoint lower upper count (i : Int)) ∘ Nat.succ
      = fun j : Nat => samplePoint lower upper count (1 + (j : Int)) := by
    funext j
    simp only [Function.comp, Nat.succ_eq_add_one]
    congr 1
    push_cast
    ring
  rw [hf]
  simp only [Nat.cast_zero]
  have hk' : samplePoint lower upper count (1 + (k : Int)) = samplePoint lower upper count count := by
    congr 1
    omega
  rw [hk']
  set L := List.map (fun j : Nat => samplePoint lower upper count (1 + (j : Int))) (List.range k)
  set a := samplePoint lower upper count 0
  set b := samplePoint lower upper count count
  have hmid : List.Perm (b :: L) (L ++ [b]) := by
    simpa using (List.perm_append_comm : List.Perm ([b] ++ L) (L ++ [b]))
  cases upperFirst
  · simpa using List.Perm.cons a hmid
  · simpa using (List.Perm.swap a b L).trans (List.Perm.cons a hmid)

/-- Claim C11, as amended: on a valid partition, with a `func` that returns at every sample
point, `integrate` calls `func` exactly `count + 1` times, once at each sample point
`x_i = lower + i * h`: first at the two end points `x_0` and `x_count` (in the order the
compiler chose), then at the interior points `x_1, ..., x_(count-1)` by increasing index. -/
theorem integrate_trace (upperFirst : Bool) (func : α → Except ε α)
    (lower upper : α) (count : Int)
    (_hb : lower < upper) (hpos : 0 < count) (_heven : Even count)
    (hall : ∀ i : Int, 0 ≤ i → i ≤ count →
      ∃ v, func (samplePoint lower upper count i) = Except.ok v) :
    (integrate upperFirst func ⟨lower, upper, count⟩).1 =
        (if upperFirst then
            [samplePoint lower upper count count, samplePoint lower upper count 0]
          else [samplePoint lower upper count 0, samplePoint lower upper count count])
          ++ (List.range (count - 1).toNat).map
              (fun j : Nat => samplePoint lower upper count (1 + (j : Int))) ∧
      (((integrate upperFirst func ⟨lower, upper, count⟩).1.length : Nat) : Int) = count + 1 ∧
      List.Perm (integrate upperFirst func ⟨lower, upper, count⟩).1
        ((List.range (count.toNat + 1)).map
          (fun i : Nat => samplePoint lower upper count (i : Int))) := by
  have hok : ∀ q ∈ evaluationOrder upperFirst lower upper count,
      func q = Except.ok (valueOf func q) := by
    intro q hq
    obtain ⟨i, hi0, hin, rfl⟩ :=
      (mem_evaluationOrder_iff upperFirst lower upper count hpos q).mp hq
    exact eq_ok_valueOf func _ (hall i hi0 hin)
  rw [integrate_ok upperFirst func (valueOf func) lower upper count hok]
  exact ⟨evaluationOrder_eq_samplePoints upperFirst lower upper count hpos,
    length_evaluationOrder upperFirst lower upper count hpos,
    evaluationOrder_perm upperFirst lower upper count hpos⟩

/-- Claim C11, as amended, at the identity function on `[0, 2]` with four sub-intervals. -/
theorem integrate_trace_witness :
    (0 : ℚ) < 2 ∧ (0 : Int) < 4 ∧ Even (4 : Int) ∧
    (∀ i : Int, 0 ≤ i → i ≤ 4 →
      ∃ v, (fun x : ℚ => (Except.ok x : Except Unit ℚ)) (samplePoint 0 2 4 i) = Except.ok v) ∧
    ((integrate false (fun x : ℚ => (Except.ok x : Except Unit ℚ)) ⟨0, 2, 4⟩).1 =
        (if false = true then [samplePoint (0 : ℚ) 2 4 4, samplePoint (0 : ℚ) 2 4 0]
          else [samplePoint (0 : ℚ) 2 4 0, samplePoint (0 : ℚ) 2 4 4])
          ++ (List.range ((4 : Int) - 1).toNat).map
              (fun j : Nat => samplePoint (0 : ℚ) 2 4 (1 + (j : Int))) ∧
      (((integrate false (fun x : ℚ => (Except.ok x : Except Unit ℚ)) ⟨0, 2, 4⟩).1.length
        : Nat) : Int) = 4 + 1 ∧
      List.Perm (integrate false (fun x : ℚ => (Except.ok x : Except Unit ℚ)) ⟨0, 2, 4⟩).1
        ((List.range ((4 : Int).toNat + 1)).map
          (fun i : Nat => samplePoint (0 : ℚ) 2 4 (i : Int)))) :=
  ⟨by norm_num, by decide, by decide, fun i _ _ => ⟨_, rfl⟩,
    integrate_trace false (fun x : ℚ => (Except.ok x : Except Unit ℚ)) 0 2 4
      (by norm_num) (by decide) (by decide) (fun i _ _ => ⟨_, rfl⟩)⟩

/-- Claim C11, as stated, fails: for the identity function on `[0, 2]` with two sub-intervals
the sample points in increasing index order are `0, 1, 2`, while the code calls `func` at
`0, 2, 1` (or at `2, 0, 1` when the compiler evaluates `func(upper)` first): the upper limit
is visited before the interior point. -/
theorem integrate_trace_not_increasing :
    (0 : ℚ) < 2 ∧ (0 : Int) < 2 ∧ Even (2 : Int) ∧
      (List.range ((2 : Int).toNat + 1)).map (fun i : Nat => samplePoint (0 : ℚ) 2 2 (i : Int))
        = [0, 1, 2] ∧
      (integrate false (fun x : ℚ => (Except.ok x : Except Unit ℚ)) ⟨0, 2, 2⟩).1 = [0, 2, 1] ∧
      (integrate true (fun x : ℚ => (Except.ok x : Except Unit ℚ)) ⟨0, 2, 2⟩).1 = [2, 0, 1] ∧
      (integrate false (fun x : ℚ => (Except.ok x : Except Unit ℚ)) ⟨0, 2, 2⟩).1 ≠
        (List.range ((2 : Int).toNat + 1)).map
          (fun i : Nat => samplePoint (0 : ℚ) 2 2 (i : Int)) ∧
      (integrate true (fun x : ℚ => (Except.ok x : Except Unit ℚ)) ⟨0, 2, 2⟩).1 ≠
        (List.range ((2 : Int).toNat + 1)).map
          (fun i : Nat => samplePoint (0 : ℚ) 2 2 (i : Int)) := by
  have hpts : (List.range ((2 : Int).toNat + 1)).map
      (fun i : Nat => samplePoint (0 : ℚ) 2 2 (i : Int)) = [0, 1, 2] := by
    have h3 : (2 : Int).toNat + 1 = 3 := by decide
    rw [h3]
    simp only [List.range_succ, List.range_zero, List.nil_append, List.cons_append,
      List.map_cons, List.map_nil, samplePoint, stepSize]
    norm_num
  have h1 : (2 : Int) - 1 = 1 := by decide
  have hf : (integrate false (fun x : ℚ => (Except.ok x : Except Unit ℚ)) ⟨0, 2, 2⟩).1
      = [0, 2, 1] := by
    rw [integrate_ok false _ (fun x => x) 0 2 2 (fun _ _ => rfl)]
    simp only [evaluationOrder, h1, Int.toNat_one, List.range_succ, List.range_zero,
      List.nil_append, List.map_cons, List.map_nil, samplePoint, stepSize]
    norm_num
  have ht : (integrate true (fun x : ℚ => (Except.ok x : Except Unit ℚ)) ⟨0, 2, 2⟩).1
      = [2, 0, 1] := by
    rw [integrate_ok true _ (fun x => x) 0 2 2 (fun _ _ => rfl)]
    simp only [evaluationOrder, h1, Int.toNat_one, List.range_succ, List.range_zero,
      List.nil_append, List.map_cons, List.map_nil, samplePoint, stepSize]
    norm_num
  refine ⟨by norm_num, by decide, by decide, hpts, hf, ht, ?_, ?_⟩
  · rw [hf, hpts]; decide
  · rw [ht, hpts]; decide

end Propagation

end Effectful

/-! ## Algebraic properties of the rule -/

section Algebra

variable {α : Type} [LinearOrderedField α]

/-- Claim C15: `integrate` is linear in the integrand: for all functions `f`, `g`, all scalars
`a`, `b` and every partition, `integrate (a * f + b * g) = a * integrate f + b * integrate g`. -/
theorem integrate_linear (f g : α → α) (a b : α) (config : IntegrationConfig α) :
    integrate (fun x => a * f x + b * g x) config =
      a * integrate f config + b * integrate g config := by
  obtain ⟨lower, upper, count⟩ := config
  rw [integrate_eq_sum, integrate_eq_sum, integrate_eq_sum]
  simp only [mul_add, Finset.sum_add_distrib]
  have hf : ∑ i in Finset.Ico (1 : Int) count,
      simpsonWeight i * (a * f (samplePoint lower upper count i)) =
      a * ∑ i in Finset.Ico (1 : Int) count,
        simpsonWeight i * f (samplePoint lower upper count i) := by
    rw [Finset.mul_sum]
    exact Finset.sum_congr rfl (fun i _ => by ring)
  have hg : ∑ i in Finset.Ico (1 : Int) count,
      simpsonWeight i * (b * g (samplePoint lower upper count i)) =
      b * ∑ i in Finset.Ico (1 : Int) count,
        simpsonWeight i * g (samplePoint lower upper count i) := by
    rw [Finset.mul_sum]
    exact Finset.sum_congr rfl (fun i _ => by ring)
  rw [hf, hg]
  ring

/-- The weights of the rule are positive. -/
theorem simpsonWeight_pos (i : Int) : (0 : α) < simpsonWeight i := by
  unfold simpsonWeight
  split_ifs <;> norm_num

/-- The step size of a partition with `lower < upper` and a positive count is positive. -/
theorem stepSize_pos (lower upper : α) (count : Int) (hb : lower < upper) (hpos : 0 < count) :
    0 < stepSize lower upper count := by
  have : (0 : α) < (count : α) := by exact_mod_cast hpos
  exact div_pos (sub_pos.mpr hb) this

/-- The rule is monotone in the samples: a pointwise inequality at the sample points passes to
the values. -/
theorem integrate_le_of_le (f g : α → α) (lower upper : α) (count : Int)
    (hb : lower < upper) (hpos : 0 < count)
    (hle : ∀ i : Int, 0 ≤ i → i ≤ count →
      f (samplePoint lower upper count i) ≤ g (samplePoint lower upper count i)) :
    integrate f ⟨lower, upper, count⟩ ≤ integrate g ⟨lower, upper, count⟩ := by
  have h0 := hle 0 (le_refl 0) (le_of_lt hpos)
  have hn := hle count (le_of_lt hpos) (le_refl count)
  rw [samplePoint_zero] at h0
  rw [samplePoint_count lower upper count (ne_of_gt hpos)] at hn
  rw [integrate_eq_sum, integrate_eq_sum]
  have hsum : ∑ i in Finset.Ico (1 : Int) count,
      simpsonWeight i * f (samplePoint lower upper count i) ≤
      ∑ i in Finset.Ico (1 : Int) count,
        simpsonWeight i * g (samplePoint lower upper count i) := by
    apply Finset.sum_le_sum
    intro i hi
    rw [Finset.mem_Ico] at hi
    exact mul_le_mul_of_nonneg_left (hle i (by omega) (by omega))
      (le_of_lt (simpsonWeight_pos i))
  have hh := stepSize_pos lower upper count hb hpos
  apply div_le_div_of_nonneg_right _ (by norm_num : (0 : α) ≤ 3)
  exact mul_le_mul_of_nonneg_right (add_le_add (add_le_add h0 hn) hsum) (le_of_lt hh)

/-- The rule applied to the zero function returns zero. -/
theorem integrate_zero (config : IntegrationConfig α) :
    integrate (fun _ => (0 : α)) config = 0 := by
  obtain ⟨lower, upper, count⟩ := config
  rw [integrate_eq_sum]
  simp

/-- Claim C17: `integrate` is monotone on valid partitions: if `f x_i ≤ g x_i` at every sample
point `x_i`, `i = 0 .. count`, then `integrate f ≤ integrate g`; in particular a function
that is non-negative at all sample points has a non-negative result. -/
theorem integrate_mono (f g : α → α) (lower upper : α) (count : Int)
    (hb : lower < upper) (hpos : 0 < count) (_heven : Even count)
    (hle : ∀ i : Int, 0 ≤ i → i ≤ count →
      f (samplePoint lower upper count i) ≤ g (samplePoint lower upper count i)) :
    integrate f ⟨lower, upper, count⟩ ≤ integrate g ⟨lower, upper, count⟩ ∧
      ((∀ i : Int, 0 ≤ i → i ≤ count → 0 ≤ f (samplePoint lower upper count i)) →
        0 ≤ integrate f ⟨lower, upper, count⟩) := by
  refine ⟨integrate_le_of_le f g lower upper count hb hpos hle, ?_⟩
  intro hnn
  have h := integrate_le_of_le (fun _ => (0 : α)) f lower upper count hb hpos hnn
  rwa [integrate_zero] at h

/-- Claim C17 at `f(x) = x` and `g(x) = x + 1` on `[0, 2]` with two sub-intervals. -/
theorem integrate_mono_witness :
    (0 : ℚ) < 2 ∧ (0 : Int) < 2 ∧ Even (2 : Int) ∧
    (∀ i : Int, 0 ≤ i → i ≤ 2 →
      (fun x : ℚ => x) (samplePoint 0 2 2 i) ≤ (fun x : ℚ => x + 1) (samplePoint 0 2 2 i)) ∧
    (integrate (fun x : ℚ => x) ⟨0, 2, 2⟩ ≤ integrate (fun x : ℚ => x + 1) ⟨0, 2, 2⟩ ∧
      ((∀ i : Int, 0 ≤ i → i ≤ 2 → 0 ≤ (fun x : ℚ => x) (samplePoint 0 2 2 i)) →
        0 ≤ integrate (fun x : ℚ => x) ⟨0, 2, 2⟩)) :=
  ⟨by norm_num, by decide, by decide, fun i _ _ => by simp,
    integrate_mono (fun x : ℚ => x) (fun x : ℚ => x + 1) 0 2 2 (by norm_num) (by decide)
      (by decide) (fun i _ _ => by simp)⟩

/-- For an even count the indices `i` and `count - i` carry the same weight. -/
theorem simpsonWeight_reflect (count i : Int) (heven : Even count) :
    (simpsonWeight (count - i) : α) = simpsonWeight i := by
  have h : Even (count - i) ↔ Even i := by
    rw [Int.even_sub]
    exact iff_true_left heven
  simp only [simpsonWeight, h]

/-- Reflecting the sample point `x_i` in the midpoint of the interval gives `x_(count - i)`. -/
theorem samplePoint_reflect (lower upper : α) (count i : Int) (hc : count ≠ 0) :
    lower + upper - samplePoint lower upper count i = samplePoint lower upper count (count - i) := by
  have : (count : α) ≠ 0 := by exact_mod_cast hc
  simp only [samplePoint, stepSize]
  push_cast
  field_simp
  ring

/-- Claim C16: on a valid partition the rule is symmetric under reflection of the interval:
`integrate (x ↦ f (lower + upper - x)) = integrate f`.  The evenness of the count is what
makes the interior indices `i` and `count - i` carry the same weight; on three sub-intervals
of `[0, 3]` the two sides differ for `f(x) = x`. -/
theorem integrate_reflect (f : α → α) (lower upper : α) (count : Int)
    (_hb : lower < upper) (hpos : 0 < count) (heven : Even count) :
    integrate (fun x => f (lower + upper - x)) ⟨lower, upper, count⟩ =
        integrate f ⟨lower, upper, count⟩ ∧
      (∀ i : Int, (simpsonWeight (count - i) : α) = simpsonWeight i) ∧
      integrate (fun x : ℚ => 0 + 3 - x) ⟨0, 3, 3⟩ ≠ integrate (fun x : ℚ => x) ⟨0, 3, 3⟩ := by
  have hc : count ≠ 0 := ne_of_gt hpos
  refine ⟨?_, fun i => simpsonWeight_reflect count i heven, ?_⟩
  · rw [integrate_eq_sum, integrate_eq_sum]
    have hl : lower + upper - lower = upper := by ring
    have hu : lower + upper - upper = lower := by ring
    have hsum : ∑ i in Finset.Ico (1 : Int) count,
        simpsonWeight i * f (lower + upper - samplePoint lower upper count i) =
        ∑ i in Finset.Ico (1 : Int) count,
          simpsonWeight i * f (samplePoint lower upper count i) := by
      apply Finset.sum_nbij' (fun i => count - i) (fun i => count - i)
      · intro i hi
        rw [Finset.mem_Ico] at hi ⊢
        omega
      · intro i hi
        rw [Finset.mem_Ico] at hi ⊢
        omega
      · intro i _
        ring
      · intro i _
        ring
      · intro i _
        rw [samplePoint_reflect lower upper count i hc, simpsonWeight_reflect count i heven]
    rw [hl, hu, hsum, add_comm (f upper) (f lower)]
  · have hI : Finset.Ico (1 : Int) 3 = {1, 2} := by decide
    have h1 : ¬ Even (1 : Int) := by decide
    have h2 : Even (2 : Int) := by decide
    rw [integrate_eq_sum, integrate_eq_sum, hI]
    rw [Finset.sum_pair (by decide), Finset.sum_pair (by decide)]
    simp only [simpsonWeight, h1, h2, if_true, if_false, samplePoint, stepSize]
    norm_num

/-- Claim C16 at `f(x) = x * x * x` on `[1, 3]` with four sub-intervals. -/
theorem integrate_reflect_witness :
    (1 : ℚ) < 3 ∧ (0 : Int) < 4 ∧ Even (4 : Int) ∧
    (integrate (fun x : ℚ => (fun y : ℚ => y * y * y) (1 + 3 - x)) ⟨1, 3, 4⟩ =
        integrate (fun y : ℚ => y * y * y) ⟨1, 3, 4⟩ ∧
      (∀ i : Int, (simpsonWeight (4 - i) : ℚ) = simpsonWeight i) ∧
      integrate (fun x : ℚ => 0 + 3 - x) ⟨0, 3, 3⟩ ≠ integrate (fun x : ℚ => x) ⟨0, 3, 3⟩) :=
  ⟨by norm_num, by decide, by decide,
    integrate_reflect (fun y : ℚ => y * y * y) 1 3 4 (by norm_num) (by decide) (by decide)⟩

end Algebra

/-! ## Convergence on `x^4` -/

section Convergence

variable {α : Type} [LinearOrderedField α]

/-- On a valid partition the rule overshoots the integral of `x^4` by
`(2/15) * (upper - lower)^5 / count^4`. -/
theorem integrate_quartic (lower upper : α) (count : Int) (hpos : 0 < count)
    (heven : Even count) :
    integrate (fun x => x ^ 4) ⟨lower, upper, count⟩ =
      (quarticPrimitive upper - quarticPrimitive lower)
        + 2 / 15 * (upper - lower) ^ 5 / (count : α) ^ 4 := by
  obtain ⟨m, rfl⟩ := exists_panels count hpos heven
  have hc : ((2 * (m + 1) : Nat) : Int) ≠ 0 := by omega
  have hm : ((m : α) + 1) ≠ 0 := by positivity
  rw [integrate_eq_panels]
  have hpanel : ∀ p ∈ Finset.range (m + 1),
      stepSize lower upper ((2 * (m + 1) : Nat) : Int) / 3 *
        ((fun x : α => x ^ 4)
            (samplePoint lower upper ((2 * (m + 1) : Nat) : Int) ((2 * p : Nat) : Int))
          + 4 * (fun x : α => x ^ 4)
            (samplePoint lower upper ((2 * (m + 1) : Nat) : Int) ((2 * p + 1 : Nat) : Int))
          + (fun x : α => x ^ 4)
            (samplePoint lower upper ((2 * (m + 1) : Nat) : Int) ((2 * p + 2 : Nat) : Int)))
        = (quarticPrimitive
              (samplePoint lower upper ((2 * (m + 1) : Nat) : Int) ((2 * (p + 1) : Nat) : Int))
            - quarticPrimitive
              (samplePoint lower upper ((2 * (m + 1) : Nat) : Int) ((2 * p : Nat) : Int)))
          + 4 / 15 * stepSize lower upper ((2 * (m + 1) : Nat) : Int) ^ 5 := by
    intro p _
    simp only [samplePoint, quarticPrimitive]
    push_cast
    ring
  rw [Finset.sum_congr rfl hpanel, Finset.sum_add_distrib,
    Finset.sum_range_sub (fun p => quarticPrimitive
      (samplePoint lower upper ((2 * (m + 1) : Nat) : Int) ((2 * p : Nat) : Int))),
    samplePoint_count lower upper _ hc, Finset.sum_const, Finset.card_range, nsmul_eq_mul]
  simp only [samplePoint, stepSize]
  push_cast
  field_simp
  ring

/-- The error of the rule on `x^4`, in closed form. -/
theorem quarticError_eq (lower upper : α) (count : Int) (hb : lower < upper)
    (hpos : 0 < count) (heven : Even count) :
    quarticError lower upper count = 2 / 15 * (upper - lower) ^ 5 / (count : α) ^ 4 := by
  have hc : (0 : α) < (count : α) := by exact_mod_cast hpos
  have hd : 0 < upper - lower := sub_pos.mpr hb
  rw [quarticError, integrate_quartic lower upper count hpos heven, add_sub_cancel_left,
    abs_of_pos]
  positivity

/-- Claim C13: for `f(x) = x^4`, every `lower < upper` and every positive even count `n`, the
absolute error of `integrate` against `(upper^5 - lower^5) / 5` at count `2 n` is strictly
smaller than the error at count `n`, and is exactly one sixteenth of it. -/
theorem quarticError_double (lower upper : α) (n : Int) (hb : lower < upper)
    (hpos : 0 < n) (heven : Even n) :
    quarticError lower upper (2 * n) < quarticError lower upper n ∧
      quarticError lower upper (2 * n) = quarticError lower upper n / 16 := by
  have hc : (0 : α) < (n : α) := by exact_mod_cast hpos
  have hd : 0 < upper - lower := sub_pos.mpr hb
  have h2 : quarticError lower upper (2 * n) = quarticError lower upper n / 16 := by
    rw [quarticError_eq lower upper n hb hpos heven,
      quarticError_eq lower upper (2 * n) hb (by omega) (Even.mul_left heven 2)]
    push_cast
    field_simp
    ring
  have hposErr : 0 < quarticError lower upper n := by
    rw [quarticError_eq lower upper n hb hpos heven]
    positivity
  refine ⟨?_, h2⟩
  rw [h2]
  linarith

/-- Claim C13 on `[0, 1]` with `n = 2`. -/
theorem quarticError_double_witness :
    (0 : ℚ) < 1 ∧ (0 : Int) < 2 ∧ Even (2 : Int) ∧
    (quarticError (0 : ℚ) 1 (2 * 2) < quarticError (0 : ℚ) 1 2 ∧
      quarticError (0 : ℚ) 1 (2 * 2) = quarticError (0 : ℚ) 1 2 / 16) :=
  ⟨by norm_num, by decide, by decide,
    quarticError_double (0 : ℚ) 1 2 (by norm_num) (by decide) (by decide)⟩

end Convergence

/-! ## The program `main` -/

section MainProgram

variable {α : Type} [LinearOrderedField α]

/-- The `switch` throws exactly on an unknown choice or an invalid partition. -/
theorem mainSwitch_error (exp : α → α) (lower upper : α) (count choice : Int)
    (hbad : (choice ≠ 1 ∧ choice ≠ 2) ∨ lower ≥ upper ∨ count ≤ 0 ∨ Odd count) :
    ∃ e, mainSwitch exp lower upper count choice = Except.error e := by
  have hcreate : (lower ≥ upper ∨ count ≤ 0 ∨ Odd count) →
      ∃ e, IntegrationConfig.create lower upper count = Except.error e := by
    intro h
    by_cases hb : lower ≥ upper
    · exact ⟨_, create_of_ge lower upper count hb⟩
    · exact ⟨_, create_of_lt_of_bad_count lower upper count (not_le.mp hb)
        (h.resolve_left hb)⟩
  unfold mainSwitch
  by_cases h1 : choice = 1
  · obtain ⟨e, he⟩ := hcreate (hbad.resolve_left (fun h => h.1 h1))
    exact ⟨e, by simp only [h1, if_true, IntegrationCalculator.calculate, he]⟩
  · by_cases h2 : choice = 2
    · obtain ⟨e, he⟩ := hcreate (hbad.resolve_left (fun h => h.2 h2))
      have h21 : ¬ ((2 : Int) = 1) := by decide
      exact ⟨e, by simp only [h2, h21, if_true, if_false, IntegrationCalculator.calculate, he]⟩
    · exact ⟨⟨"Invalid function choice"⟩, by simp only [h1, h2, if_false]⟩

/-- On a known choice and a valid partition the `switch` assigns to `result` the value of
the Simpson `integrate` of the chosen example function. -/
theorem mainSwitch_ok (exp : α → α) (lower upper : α) (count choice : Int)
    (hchoice : choice = 1 ∨ choice = 2) (hb : lower < upper) (hpos : 0 < count)
    (heven : Even count) :
    mainSwitch exp lower upper count choice =
      Except.ok (integrate (if choice = 1 then exampleFunction1 exp else exampleFunction2)
        ⟨lower, upper, count⟩) := by
  have hc := (create_eq_ok_iff lower upper count ⟨lower, upper, count⟩).mpr
    ⟨⟨hb, hpos, heven⟩, rfl⟩
  unfold mainSwitch
  rcases hchoice with h | h
  · simp only [h, if_true, IntegrationCalculator.calculate, hc, SimpsonsRuleIntegration]
  · have h1 : ¬ ((2 : Int) = 1) := by decide
    simp only [h, h1, if_true, if_false, IntegrationCalculator.calculate, hc,
      SimpsonsRuleIntegration]

/-- The banner and the prompts contain no number. -/
theorem number_not_mem_prompts {β : Type} (x : β) : Output.number x ∉ prompts β := by
  simp [prompts]

/-- Claim C14: `main`, as a function of its four parsed inputs, returns exit status `1` with
a message that starts with `Error: ` on `std::cerr`, and prints no result, if and only if
the choice is neither `1` nor `2`, or `lower ≥ upper`, or `count ≤ 0`, or `count` is odd;
otherwise it returns `0` and prints the value of the Simpson `integrate` of the chosen
example function.  Every validation failure of `IntegrationConfig` gives a non-zero exit
status. -/
theorem main_exit_status (exp : α → α) (lower upper : α) (count choice : Int) :
    (((main exp lower upper count choice).exitStatus = 1 ∧
        (∃ msg, (main exp lower upper count choice).stderr =
          [Output.text "Error: ", Output.text msg, Output.text "\n"]) ∧
        (∀ x, Output.number x ∉ (main exp lower upper count choice).stdout)) ↔
      ((choice ≠ 1 ∧ choice ≠ 2) ∨ lower ≥ upper ∨ count ≤ 0 ∨ Odd count)) ∧
    (¬ ((choice ≠ 1 ∧ choice ≠ 2) ∨ lower ≥ upper ∨ count ≤ 0 ∨ Odd count) →
      (main exp lower upper count choice).exitStatus = 0 ∧
      (main exp lower upper count choice).stderr = [] ∧
      (main exp lower upper count choice).stdout = prompts α ++
        [Output.text "Numerical Integration Result: ",
          Output.number
            (integrate (if choice = 1 then exampleFunction1 exp else exampleFunction2)
              ⟨lower, upper, count⟩),
          Output.text "\n"]) ∧
    (∀ e, IntegrationConfig.create lower upper count = Except.error e →
      (main exp lower upper count choice).exitStatus ≠ 0) := by
  have hgood : ¬ ((choice ≠ 1 ∧ choice ≠ 2) ∨ lower ≥ upper ∨ count ≤ 0 ∨ Odd count) →
      mainSwitch exp lower upper count choice =
        Except.ok (integrate (if choice = 1 then exampleFunction1 exp else exampleFunction2)
          ⟨lower, upper, count⟩) := by
    intro h
    simp only [not_or, not_and_or, not_not, not_le, Int.not_odd_iff_even] at h
    exact mainSwitch_ok exp lower upper count choice h.1 h.2.1 h.2.2.1 h.2.2.2
  refine ⟨⟨?_, ?_⟩, ?_, ?_⟩
  · rintro ⟨hexit, -, -⟩
    by_contra hbad
    simp only [main, hgood hbad] at hexit
    exact absurd hexit (by decide)
  · intro hbad
    obtain ⟨e, he⟩ := mainSwitch_error exp lower upper count choice hbad
    simp only [main, he]
    exact ⟨trivial, ⟨e.what, rfl⟩, fun x => number_not_mem_prompts x⟩
  · intro hbad
    simp only [main, hgood hbad]
    exact ⟨trivial, trivial, trivial⟩
  · intro e he
    have hbad : (choice ≠ 1 ∧ choice ≠ 2) ∨ lower ≥ upper ∨ count ≤ 0 ∨ Odd count := by
      by_contra hbad
      simp only [not_or, not_and_or, not_not, not_le, Int.not_odd_iff_even] at hbad
      have hc := (create_eq_ok_iff lower upper count ⟨lower, upper, count⟩).mpr
        ⟨hbad.2, rfl⟩
      rw [he] at hc
      cases hc
    obtain ⟨e', he'⟩ := mainSwitch_error exp lower upper count choice hbad
    simp only [main, he']
    decide

end MainProgram

/-! ## The logarithm of two -/

section LogTwo

/-- For a small positive `u`, `ln ((1 + u) / (1 - u))` is `2 u + (2/3) u^3` up to `4 u^5`. -/
theorem log_ratio_bound (u : ℝ) (hu0 : 0 < u) (hu1 : u ≤ 1 / 1000) :
    |Real.log (1 + u) - Real.log (1 - u) - (2 * u + 2 / 3 * u ^ 3)| ≤ 4 * u ^ 5 := by
  have habs : |u| < 1 := by rw [abs_of_pos hu0]; linarith
  have habs' : |(-u)| < 1 := by rw [abs_neg]; exact habs
  have hA := Real.abs_log_sub_add_sum_range_le habs 4
  have hB := Real.abs_log_sub_add_sum_range_le habs' 4
  rw [abs_neg] at hB
  rw [abs_of_pos hu0] at hA hB
  simp only [Finset.sum_range_succ, Finset.sum_range_zero, sub_neg_eq_add] at hA hB
  have hden : u ^ 5 / (1 - u) ≤ 2 * u ^ 5 := by
    rw [div_le_iff₀ (by linarith)]
    have : 0 ≤ u ^ 5 := by positivity
    nlinarith
  have hA' := le_trans hA hden
  have hB' := le_trans hB hden
  rw [abs_le] at hA' hB' ⊢
  norm_num at hA' hB'
  constructor <;> nlinarith [hA'.1, hA'.2, hB'.1, hB'.2]

/-- One panel of the rule on `1/x`, centred at `c` with half-width `h ≤ c / 1000`, differs from
`ln (c + h) - ln (c - h)` by at most `1e-9`. -/
theorem panel_bound (c h : ℝ) (hh : 0 < h) (hc : 1000 * h ≤ c) :
    |h / 3 * (1 / (c - h) + 4 * (1 / c) + 1 / (c + h)) - (Real.log (c + h) - Real.log (c - h))|
      ≤ 1 / 10 ^ 9 := by
  have hc0 : 0 < c := by linarith
  obtain ⟨u, hu⟩ : ∃ u : ℝ, u = h / c := ⟨_, rfl⟩
  have hu0 : 0 < u := by rw [hu]; positivity
  have hu1 : u ≤ 1 / 1000 := by
    rw [hu, div_le_iff₀ hc0]; linarith
  have hh' : h = u * c := by rw [hu]; field_simp
  have h1u : 0 < 1 - u := by linarith
  have h1u' : 0 < 1 + u := by linarith
  have hlog : Real.log (c + h) - Real.log (c - h) = Real.log (1 + u) - Real.log (1 - u) := by
    have e1 : c + h = c * (1 + u) := by rw [hh']; ring
    have e2 : c - h = c * (1 - u) := by rw [hh']; ring
    rw [e1, e2, Real.log_mul (ne_of_gt hc0) (ne_of_gt h1u'),
      Real.log_mul (ne_of_gt hc0) (ne_of_gt h1u)]
    ring
  have hpanel : h / 3 * (1 / (c - h) + 4 * (1 / c) + 1 / (c + h))
      = (2 * u + 2 / 3 * u ^ 3) + 2 / 3 * u ^ 5 / (1 - u ^ 2) := by
    have h2 : (1 : ℝ) - u ^ 2 ≠ 0 := by nlinarith
    have e1 : c - u * c ≠ 0 := by
      have : c - u * c = c * (1 - u) := by ring
      rw [this]; positivity
    have e2 : c + u * c ≠ 0 := by
      have : c + u * c = c * (1 + u) := by ring
      rw [this]; positivity
    rw [hh']
    field_simp
    ring
  have hL := log_ratio_bound u hu0 hu1
  have hu5 : u ^ 5 ≤ (1 / 1000) ^ 5 := pow_le_pow_left₀ (le_of_lt hu0) hu1 5
  have hq : 2 / 3 * u ^ 5 / (1 - u ^ 2) ≤ 2 * u ^ 5 := by
    have hsq : u ^ 2 ≤ 1 / 2 := by nlinarith
    rw [div_le_iff₀ (by linarith)]
    have : 0 ≤ u ^ 5 := by positivity
    nlinarith [mul_nonneg this (by linarith : (0 : ℝ) ≤ 4 / 3 - 2 * u ^ 2)]
  have hq0 : 0 ≤ 2 / 3 * u ^ 5 / (1 - u ^ 2) := by
    apply div_nonneg (by positivity); nlinarith
  rw [hlog, hpanel, abs_le]
  rw [abs_le] at hL
  norm_num at hu5
  constructor <;> norm_num <;> linarith [hL.1, hL.2]

/-- Claim C12: in exact real arithmetic, `integrate` applied to `f(x) = 1/x` with `lower = 1`,
`upper = 2` and `count = 1000` differs from `ln 2` by less than `1e-6`. -/
theorem integrate_inv_near_log_two :
    |integrate (exampleFunction2 : ℝ → ℝ) ⟨1, 2, 1000⟩ - Real.log 2| < 1 / 1000000 := by
  have e : (1000 : Int) = ((2 * (499 + 1) : Nat) : Int) := by norm_num
  rw [e, integrate_eq_panels]
  obtain ⟨N, hN⟩ : ∃ N : Int, N = ((2 * (499 + 1) : Nat) : Int) := ⟨_, rfl⟩
  rw [← hN]
  have hNr : (N : ℝ) = 1000 := by rw [hN]; norm_num
  have hN0 : N ≠ 0 := by rw [hN]; decide
  have hstep : stepSize (1 : ℝ) 2 N = 1 / 1000 := by
    rw [stepSize, hNr]; norm_num
  have hlog : Real.log 2 = ∑ p in Finset.range (499 + 1),
      (Real.log (samplePoint (1 : ℝ) 2 N ((2 * (p + 1) : Nat) : Int))
        - Real.log (samplePoint (1 : ℝ) 2 N ((2 * p : Nat) : Int))) := by
    rw [Finset.sum_range_sub
      (fun p => Real.log (samplePoint (1 : ℝ) 2 N ((2 * p : Nat) : Int)))]
    rw [← hN, samplePoint_count (1 : ℝ) 2 N hN0]
    simp [samplePoint]
  rw [hlog, ← Finset.sum_sub_distrib]
  have hterm : ∀ p ∈ Finset.range (499 + 1),
      |stepSize (1 : ℝ) 2 N / 3 *
          (exampleFunction2 (samplePoint (1 : ℝ) 2 N ((2 * p : Nat) : Int))
            + 4 * exampleFunction2 (samplePoint (1 : ℝ) 2 N ((2 * p + 1 : Nat) : Int))
            + exampleFunction2 (samplePoint (1 : ℝ) 2 N ((2 * p + 2 : Nat) : Int)))
        - (Real.log (samplePoint (1 : ℝ) 2 N ((2 * (p + 1) : Nat) : Int))
            - Real.log (samplePoint (1 : ℝ) 2 N ((2 * p : Nat) : Int)))| ≤ 1 / 10 ^ 9 := by
    intro p _
    have hp : (0 : ℝ) ≤ (p : ℝ) := Nat.cast_nonneg p
    have h0 : samplePoint (1 : ℝ) 2 N ((2 * p : Nat) : Int)
        = samplePoint (1 : ℝ) 2 N ((2 * p + 1 : Nat) : Int) - 1 / 1000 := by
      simp only [samplePoint, hstep]; push_cast; ring
    have h2 : samplePoint (1 : ℝ) 2 N ((2 * p + 2 : Nat) : Int)
        = samplePoint (1 : ℝ) 2 N ((2 * p + 1 : Nat) : Int) + 1 / 1000 := by
      simp only [samplePoint, hstep]; push_cast; ring
    have h2' : samplePoint (1 : ℝ) 2 N ((2 * (p + 1) : Nat) : Int)
        = samplePoint (1 : ℝ) 2 N ((2 * p + 1 : Nat) : Int) + 1 / 1000 := by
      simp only [samplePoint, hstep]; push_cast; ring
    have hc : 1000 * (1 / 1000 : ℝ) ≤ samplePoint (1 : ℝ) 2 N ((2 * p + 1 : Nat) : Int) := by
      simp only [samplePoint, hstep]; push_cast; linarith
    rw [h0, h2, h2', hstep]
    exact panel_bound _ _ (by norm_num) hc
  calc |∑ p in Finset.range (499 + 1),
        (stepSize (1 : ℝ) 2 N / 3 *
          (exampleFunction2 (samplePoint (1 : ℝ) 2 N ((2 * p : Nat) : Int))
            + 4 * exampleFunction2 (samplePoint (1 : ℝ) 2 N ((2 * p + 1 : Nat) : Int))
            + exampleFunction2 (samplePoint (1 : ℝ) 2 N ((2 * p + 2 : Nat) : Int)))
        - (Real.log (samplePoint (1 : ℝ) 2 N ((2 * (p + 1) : Nat) : Int))
            - Real.log (samplePoint (1 : ℝ) 2 N ((2 * p : Nat) : Int))))|
      ≤ ∑ p in Finset.range (499 + 1),
        |stepSize (1 : ℝ) 2 N / 3 *
          (exampleFunction2 (samplePoint (1 : ℝ) 2 N ((2 * p : Nat) : Int))
            + 4 * exampleFunction2 (samplePoint (1 : ℝ) 2 N ((2 * p + 1 : Nat) : Int))
            + exampleFunction2 (samplePoint (1 : ℝ) 2 N ((2 * p + 2 : Nat) : Int)))
        - (Real.log (samplePoint (1 : ℝ) 2 N ((2 * (p + 1) : Nat) : Int))
            - Real.log (samplePoint (1 : ℝ) 2 N ((2 * p : Nat) : Int)))| :=
        Finset.abs_sum_le_sum_abs _ _
    _ ≤ ∑ _p in Finset.range (499 + 1), (1 / 10 ^ 9 : ℝ) := Finset.sum_le_sum hterm
    _ < 1 / 1000000 := by
        rw [Finset.sum_const, Finset.card_range, nsmul_eq_mul]
        norm_num

end LogTwo

end Simpsons
